import Mathlib

/-!
Shallow embedding of the RegExpr automaton pipeline (src/parser.rs,
src/automaton.rs, src/engine.rs).

Modelling conventions:
* Rust `usize` identities become `Nat`.
* `NodeAllocator` stores `Vec<Node>` whose entries are exactly the nodes
  with ids `0 .. len-1`; it is modelled by its length (the next fresh id).
* `BTreeSet<Edge>` is modelled by a sorted, duplicate-free `List Edge`
  maintained by `insertEdge`, using the derived lexicographic order of
  `Edge` (condition, from, to; `None < Some`).
* `HashSet`/`HashMap` are modelled by duplicate-free lists / association
  lists in insertion order; all observable results proved here are
  insensitive to the iteration order of these containers.
* Subsets of NFA nodes (`HashSet<Node>` used as `DFAAllocator` keys) are
  kept in canonical sorted duplicate-free form, so Rust's set equality
  coincides with list equality.
* Recursions that Rust drives by mutable visited sets / worklists are
  given an explicit fuel parameter and return `none` when the fuel runs
  out (and also for the `unwrap` panic on an epsilon edge inside
  `succeeding_subsets`); termination theorems exhibit sufficient fuel.
* `engine.rs` reads a field `is_acceptor` from `DFANode` that the struct
  in `automaton.rs` does not declare (the program does not compile as
  shipped); the embedding carries this field on `DFANode`, and every
  `DFANode` created by `automaton.rs` code carries `is_acceptor = false`.
-/

namespace Automaton

/-- Identity of an NFA state (automaton.rs `Node`). -/
structure Node where
  id : Nat
deriving DecidableEq, Repr

/-- automaton.rs `NodeAllocator`, modelled by the number of allocated nodes. -/
abbrev NodeAllocator := Nat

/-- automaton.rs `Node::new`: next id is the current length of the arena. -/
def Node.new (alloc : NodeAllocator) : Node × NodeAllocator :=
  (⟨alloc⟩, alloc + 1)

/-- automaton.rs `Edge`; `condition = none` is an epsilon edge. -/
structure Edge where
  condition : Option Char
  from_ : Node
  to_ : Node
deriving DecidableEq, Repr

/-- Sort key of an edge condition: `None < Some c`, `Some` ordered by scalar. -/
def condKey : Option Char → Nat × Nat
  | none => (0, 0)
  | some c => (1, c.toNat)

/-- Derived lexicographic strict order on `Edge` (condition, from, to). -/
def Edge.ltb (a b : Edge) : Bool :=
  let ka := condKey a.condition
  let kb := condKey b.condition
  if ka.1 ≠ kb.1 then ka.1 < kb.1
  else if ka.2 ≠ kb.2 then ka.2 < kb.2
  else if a.from_.id ≠ b.from_.id then a.from_.id < b.from_.id
  else a.to_.id < b.to_.id

/-- Ordered duplicate-free insertion, modelling `BTreeSet<Edge>::insert`. -/
def insertEdge (e : Edge) : List Edge → List Edge
  | [] => [e]
  | f :: fs =>
    if e.ltb f then e :: f :: fs
    else if e = f then f :: fs
    else f :: insertEdge e fs

/-- Duplicate-free insertion in arrival order, modelling `HashSet::insert`. -/
def hsInsert {α : Type} [DecidableEq α] (l : List α) (x : α) : List α :=
  if x ∈ l then l else l ++ [x]

/-- Entry lookup in an association list, modelling `HashMap::get`. -/
def aFind {α β : Type} [DecidableEq α] : List (α × β) → α → Option β
  | [], _ => none
  | (k, v) :: rest, k' => if k = k' then some v else aFind rest k'

/-- The `entry(k).or_insert(HashSet::new()).insert(v)` idiom. -/
def aAdd {α β : Type} [DecidableEq α] [DecidableEq β] :
    List (α × List β) → α → β → List (α × List β)
  | [], k, v => [(k, [v])]
  | (k', vs) :: rest, k, v =>
    if k' = k then (k', hsInsert vs v) :: rest else (k', vs) :: aAdd rest k v

/-- The `entry(k).or_insert(HashSet::new()).extend(vs)` idiom. -/
def aExtend {α β : Type} [DecidableEq α] [DecidableEq β] :
    List (α × List β) → α → List β → List (α × List β)
  | [], k, vs => [(k, vs.foldl hsInsert [])]
  | (k', vs') :: rest, k, vs =>
    if k' = k then (k', vs.foldl hsInsert vs') :: rest
    else (k', vs') :: aExtend rest k vs

/-- Value of a map entry, `[]` when the key is absent. -/
def aGet {α β : Type} [DecidableEq α] (m : List (α × List β)) (k : α) : List β :=
  (aFind m k).getD []

/-- Sorted duplicate-free insertion of a node by id (canonical node sets). -/
def insertNode (x : Node) : List Node → List Node
  | [] => [x]
  | y :: ys =>
    if x.id < y.id then x :: y :: ys
    else if x = y then y :: ys
    else y :: insertNode x ys

/-- Canonical (sorted, duplicate-free) form of a collected node set. -/
def sortNodes (l : List Node) : List Node :=
  l.foldl (fun acc x => insertNode x acc) []

/-- automaton.rs `Graph`: NFA with optional-character edges. -/
structure Graph where
  start : Node
  edges : List Edge
  acceptors : List Node
deriving DecidableEq, Repr

/-- `Graph::add_edge`. -/
def Graph.add_edge (g : Graph) (condition : Option Char) (f t : Node) : Graph :=
  { g with edges := insertEdge ⟨condition, f, t⟩ g.edges }

/-- parser.rs `RegExpr` (the `Repeation` spelling is the source's). -/
inductive RegExpr where
  | Character : Char → RegExpr
  | Range : List Char → RegExpr
  | Repeation : RegExpr → RegExpr
  | Branch : RegExpr → RegExpr → RegExpr
  | Sequence : List RegExpr → RegExpr
deriving Repr

/-- The fold in the `Sequence` arm of `build_nfa`: thread `(edges, current_end)`
through the sub-NFAs, linking every node of `current_end` by an epsilon edge to
the next sub-NFA's start and replacing `current_end` by its acceptors. -/
def seqChain (nfas : List Graph) (st : List Edge × List Node) :
    List Edge × List Node :=
  nfas.foldl
    (fun st nfa =>
      let es := nfa.edges.foldl (fun acc e => insertEdge e acc) st.1
      let es := st.2.foldl (fun acc a => insertEdge ⟨none, a, nfa.start⟩ acc) es
      (es, nfa.acceptors))
    st

mutual

/-- automaton.rs `build_nfa`: Thompson-style construction by structural
recursion on the expression tree. -/
def build_nfa (expr : RegExpr) (alloc : NodeAllocator) : Graph × NodeAllocator :=
  match expr with
  | .Character c =>
    let (start, alloc) := Node.new alloc
    let (endN, alloc) := Node.new alloc
    let graph : Graph := ⟨start, [], []⟩
    let graph := graph.add_edge (some c) start endN
    ({ graph with acceptors := hsInsert graph.acceptors endN }, alloc)
  | .Sequence v =>
    let (start, alloc) := Node.new alloc
    let (nfas, alloc) := build_nfa_list v alloc
    let (endN, alloc) := Node.new alloc
    let (es, current_end) := seqChain nfas ([], [start])
    let es := current_end.foldl (fun acc a => insertEdge ⟨none, a, endN⟩ acc) es
    ({ start := start, edges := es, acceptors := [endN] }, alloc)
  | .Branch l r =>
    let (lhs, alloc) := build_nfa l alloc
    let (rhs, alloc) := build_nfa r alloc
    let (start, alloc) := Node.new alloc
    let (endN, alloc) := Node.new alloc
    let es := rhs.edges.foldl (fun acc e => insertEdge e acc) lhs.edges
    let es := insertEdge ⟨none, start, lhs.start⟩ es
    let es := insertEdge ⟨none, start, rhs.start⟩ es
    let es := lhs.acceptors.foldl (fun acc a => insertEdge ⟨none, a, endN⟩ acc) es
    let es := rhs.acceptors.foldl (fun acc a => insertEdge ⟨none, a, endN⟩ acc) es
    ({ start := start, edges := es, acceptors := [endN] }, alloc)
  | .Range range =>
    let (start, alloc) := Node.new alloc
    let (endN, alloc) := Node.new alloc
    ({ start := start,
       edges := range.foldl (fun acc c => insertEdge ⟨some c, start, endN⟩ acc) [],
       acceptors := [endN] }, alloc)
  | .Repeation e =>
    let (graph, alloc) := build_nfa e alloc
    let graph := { graph with acceptors := hsInsert graph.acceptors graph.start }
    let newEdges :=
      graph.acceptors.flatMap fun a =>
        [Edge.mk none graph.start a, Edge.mk none a graph.start]
    ({ graph with edges := newEdges.foldl (fun acc e => insertEdge e acc) graph.edges },
     alloc)

/-- The `v.iter().map(|e| build_nfa(e, alloc)).collect()` in the `Sequence` arm. -/
def build_nfa_list (v : List RegExpr) (alloc : NodeAllocator) :
    List Graph × NodeAllocator :=
  match v with
  | [] => ([], alloc)
  | e :: es =>
    let (g, alloc) := build_nfa e alloc
    let (gs, alloc) := build_nfa_list es alloc
    (g :: gs, alloc)

end

/-- One pass over the input edges of `merge_by_epsilon`, building
`(successors_through_epsilon, successors_through_non_epsilon, ret.edges)`:
epsilon edges go into the first map, non-epsilon edges into the second map and
directly into the output edge set. -/
def mmStep
    (st : List (Node × List Node) × List (Node × List (Char × Node)) × List Edge)
    (e : Edge) :
    List (Node × List Node) × List (Node × List (Char × Node)) × List Edge :=
  match e.condition with
  | none => (aAdd st.1 e.from_ e.to_, st.2.1, st.2.2)
  | some c => (st.1, aAdd st.2.1 e.from_ (c, e.to_), insertEdge e st.2.2)

def mergeMaps (edges : List Edge) :
    List (Node × List Node) × List (Node × List (Char × Node)) × List Edge :=
  edges.foldl mmStep ([], [], [])

/-- automaton.rs `reachable_through_epsilon`: accumulate all nodes reachable by
one or more epsilon steps; the visited set is threaded through the `for to in
nodes` loop exactly as the Rust `&mut` parameter is. `fuel` bounds the
recursion depth (the Rust recursion has no explicit bound); `none` models
running out of fuel. -/
def reachable_through_epsilon (m : List (Node × List Node)) :
    Nat → Node → List Node → Option (List Node × List Node)
  | 0, _, _ => none
  | fuel + 1, current, visited =>
    if current ∈ visited then some ([], visited)
    else
      let visited := visited ++ [current]
      match aFind m current with
      | none => some ([], visited)
      | some nodes =>
        nodes.foldl
          (fun acc t =>
            match acc with
            | none => none
            | some (a, vis) =>
              match reachable_through_epsilon m fuel t vis with
              | none => none
              | some (ext, vis) => some (ext.foldl hsInsert a, vis))
          (some (nodes, visited))

/-- The closure passed to `graph.traverse_node` inside `merge_by_epsilon`:
compute the epsilon closure of `node` with a fresh visited set, copy every
non-epsilon edge leaving the closure onto `node`, and update the output
acceptor set (including the final `ret.acceptors.extend(through_epsilon)`
when `node` itself accepts). -/
def mvInner (node : Node) (st : List Edge × List Node) (ct : Char × Node) :
    List Edge × List Node :=
  (insertEdge ⟨some ct.1, node, ct.2⟩ st.1, st.2)

def mvOuter (g : Graph) (nonEpsMap : List (Node × List (Char × Node)))
    (node : Node) (st : List Edge × List Node) (as_ : Node) :
    List Edge × List Node :=
  let st := (aGet nonEpsMap as_).foldl (mvInner node) st
  if as_ ∈ g.acceptors then (st.1, hsInsert st.2 node) else st

def mergeVisit (g : Graph) (epsMap : List (Node × List Node))
    (nonEpsMap : List (Node × List (Char × Node))) (rteFuel : Nat) (node : Node)
    (st : List Edge × List Node) : Option (List Edge × List Node) :=
  match reachable_through_epsilon epsMap rteFuel node [] with
  | none => none
  | some (closure, _) =>
    let st := closure.foldl (mvOuter g nonEpsMap node) st
    if node ∈ g.acceptors then
      some (st.1, closure.foldl hsInsert (hsInsert st.2 node))
    else some st

/-- automaton.rs `Graph::traverse_node`, specialised to the closure that
`merge_by_epsilon` passes to it; `st` is the output under construction
(`ret.edges`, `ret.acceptors`), the visited set is threaded as in the Rust
`&mut` parameter, and `fuel` bounds the recursion depth. -/
def traverse_node (g : Graph) (epsMap : List (Node × List Node))
    (nonEpsMap : List (Node × List (Char × Node))) (rteFuel : Nat) :
    Nat → Node → List Node → List Edge × List Node →
    Option ((List Edge × List Node) × List Node)
  | 0, _, _, _ => none
  | fuel + 1, current, visited, st =>
    if current ∈ visited then some (st, visited)
    else
      let visited := visited ++ [current]
      match mergeVisit g epsMap nonEpsMap rteFuel current st with
      | none => none
      | some st =>
        (g.edges.filter (fun e => e.from_ = current)).foldl
          (fun acc e =>
            match acc with
            | none => none
            | some (st, vis) =>
              traverse_node g epsMap nonEpsMap rteFuel fuel e.to_ vis st)
          (some (st, visited))

/-- automaton.rs `merge_by_epsilon`: epsilon elimination. `tnFuel` bounds the
`traverse_node` recursion and `rteFuel` each closure computation. -/
def merge_by_epsilon (tnFuel rteFuel : Nat) (g : Graph) : Option Graph :=
  let (epsMap, nonEpsMap, edges0) := mergeMaps g.edges
  match traverse_node g epsMap nonEpsMap rteFuel tnFuel g.start [] (edges0, []) with
  | none => none
  | some (st, _) => some { start := g.start, edges := st.1, acceptors := st.2 }

/-- automaton.rs `DFANode`. The `id` field is the struct's declared field; the
`is_acceptor` field is the one `engine.rs` reads from this type (the struct in
`automaton.rs` does not declare it, so the shipped program does not compile);
every `DFANode` that `automaton.rs` creates carries `is_acceptor = false`. -/
structure DFANode where
  id : Nat
  is_acceptor : Bool := false
deriving DecidableEq, Repr

/-- automaton.rs `DFAEdge`: the condition is never epsilon. -/
structure DFAEdge where
  condition : Char
  from_ : DFANode
  to_ : DFANode
deriving DecidableEq, Repr

/-- automaton.rs `DFA`. -/
structure DFA where
  start : DFANode
  edges : List DFAEdge
  acceptors : List DFANode
deriving DecidableEq, Repr

/-- automaton.rs `DFAAllocator`: the `HashMap<DFANode, HashSet<Node>>` as an
association list in insertion order; subset values are canonical sorted lists,
so Rust's `HashSet` equality is list equality here. -/
abbrev DFAAllocator := List (DFANode × List Node)

/-- automaton.rs `DFAAllocator::new_node`: return the identity already mapped
to an equal subset if one exists, otherwise register a fresh identity whose id
is the current number of entries. -/
def DFAAllocator.new_node (alloc : DFAAllocator) (nodes : List Node) :
    DFANode × DFAAllocator :=
  match alloc.find? (fun p => p.2 = nodes) with
  | some p => (p.1, alloc)
  | none => (⟨alloc.length, false⟩, alloc ++ [(⟨alloc.length, false⟩, nodes)])

/-- automaton.rs `PowerSet::min_node`: first element of the ordered node set
(Rust unwraps; the call sites used below always pass a non-empty set). -/
def psMin (ns : List Node) : Node := ns.headD ⟨0⟩

/-- automaton.rs `PowerSet::max_node`: last element of the ordered node set. -/
def psMax (ns : List Node) : Node := ns.getLast? |>.getD ⟨0⟩

/-- automaton.rs `PowerSet::next_node`: first element strictly above `d`. -/
def psNextNode (ns : List Node) (d : Node) : Node :=
  (ns.dropWhile (fun n => n.id ≤ d.id)).headD ⟨0⟩

/-- automaton.rs `PowerSet::next` (`Iterator::next`): `cur` is the `current`
vector; returns the yielded set (the vector collected into a `HashSet`, hence
canonicalised) together with the new vector, or `none` when iteration ends.
The Rust `for` loop only ever examines index 0, because every branch of its
body breaks out of the loop or returns. -/
def psNext (ns : List Node) (cur : List Node) :
    Option (List Node × List Node) :=
  match cur with
  | [] => some (sortNodes [psMin ns], [psMin ns])
  | d :: rest =>
    if d ≠ psMax ns then
      let c := psNextNode ns d :: rest
      some (sortNodes c, c)
    else
      if cur.length < ns.length then
        let c := (psMin ns :: rest) ++ [psMin ns]
        some (sortNodes c, c)
      else none

/-- Drain the `PowerSet` iterator from state `cur`, collecting the yielded
subsets; `none` when `fuel` runs out before the iterator is exhausted. -/
def powerSetDrain (ns : List Node) : Nat → List Node → Option (List (List Node))
  | 0, _ => none
  | fuel + 1, cur =>
    match psNext ns cur with
    | none => some []
    | some (y, cur) =>
      match powerSetDrain ns fuel cur with
      | none => none
      | some ys => some (y :: ys)

/-- One step of the `.map(|nodes| alloc.new_node(nodes))` collection inside
`succeeding_subsets`: canonicalise one subset and add the resulting `DFANode`
to the collected `HashSet`. -/
def allocStep (p : List DFANode × DFAAllocator) (s : List Node) :
    List DFANode × DFAAllocator :=
  let (d, a) := DFAAllocator.new_node p.2 s
  (hsInsert p.1 d, a)

/-- automaton.rs `succeeding_subsets`: for every edge leaving a member of
`start`, enumerate the subsets produced by the `PowerSet` iterator, keep those
containing the edge's target, canonicalise each through the allocator, and
extend the entry of the edge's condition with the resulting `DFANode`s.
Returns `none` when the powerset fuel runs out or when an epsilon edge makes
`edge.condition.unwrap()` panic. -/
def succeeding_subsets (psFuel : Nat) (start : List Node) :
    List Edge → List Node → DFAAllocator →
    Option (List (Char × List DFANode) × DFAAllocator)
  | [], _, alloc => some ([], alloc)
  | e :: rest, all_nodes, alloc =>
    if e.from_ ∈ start then
      match e.condition with
      | none => none
      | some c =>
        match powerSetDrain all_nodes psFuel [] with
        | none => none
        | some yields =>
          let filtered := yields.filter (fun s => e.to_ ∈ s)
          let (ds, alloc) := filtered.foldl allocStep ([], alloc)
          match succeeding_subsets psFuel start rest all_nodes alloc with
          | none => none
          | some (subsets, alloc) => some (aExtend subsets c ds, alloc)
    else succeeding_subsets psFuel start rest all_nodes alloc

/-- The innermost `for successor in successors` step of `build_dfa`'s loop
body: insert the edge and enqueue the successor unless it was visited. -/
def dfaInner (startD : DFANode) (c : Char)
    (st : List DFAEdge × List DFANode × List DFANode) (d : DFANode) :
    List DFAEdge × List DFANode × List DFANode :=
  let es := hsInsert st.1 ⟨c, startD, d⟩
  if d ∈ st.2.1 then (es, st.2.1, st.2.2)
  else (es, st.2.1 ++ [d], hsInsert st.2.2 d)

/-- The body of one iteration of `build_dfa`'s `while` loop: insert a
`DFAEdge` from `startD` for every successor in the map, and enqueue each
successor not yet visited. Returns the new edge set, the visited set and the
new queue. -/
def dfaIter (startD : DFANode) (m : List (Char × List DFANode))
    (edges : List DFAEdge) (visited : List DFANode) :
    List DFAEdge × List DFANode × List DFANode :=
  m.foldl (fun st cs => cs.2.foldl (dfaInner startD cs.1) st)
    (edges, visited, [])

/-- automaton.rs `build_dfa`'s `while !queue.is_empty()` loop. Note that every
iteration calls `succeeding_subsets` with `alloc.nodes[&start]`, the subset of
the `start` DFA node, never with the popped queue element. -/
def buildDfaLoop (psFuel : Nat) (g : Graph) (all_nodes : List Node)
    (startD : DFANode) :
    Nat → List DFANode → List DFANode → DFA → DFAAllocator →
    Option (DFA × DFAAllocator)
  | fuel, queue, visited, dfa, alloc =>
    if queue = [] then some (dfa, alloc)
    else
      match fuel with
      | 0 => none
      | fuel + 1 =>
        match succeeding_subsets psFuel (aGet alloc startD) g.edges all_nodes alloc with
        | none => none
        | some (m, alloc) =>
          let t := dfaIter startD m dfa.edges visited
          buildDfaLoop psFuel g all_nodes startD fuel t.2.2 t.2.1
            { dfa with edges := t.1 } alloc

/-- automaton.rs `build_dfa`: collect every node mentioned by an edge, seed the
allocator and the queue with the singleton subset of the graph start, and run
the worklist loop. The returned `DFA` has whatever `dfa.acceptors` the loop
left — the code never adds acceptors (`//TODO: add acceptors`). -/
def build_dfa (loopFuel psFuel : Nat) (g : Graph) (alloc : DFAAllocator) :
    Option (DFA × DFAAllocator) :=
  let all_nodes := sortNodes (g.edges.flatMap (fun e => [e.from_, e.to_]))
  let (startD, alloc) := DFAAllocator.new_node alloc (sortNodes [g.start])
  buildDfaLoop psFuel g all_nodes startD loopFuel [startD] []
    ⟨startD, [], []⟩ alloc

/-- engine.rs `Engine`: the transition table is the
`BTreeMap<DFANode, HashMap<char, DFANode>>` as an association list. -/
structure Engine where
  start : DFANode
  edges : List (DFANode × List (Char × DFANode))
deriving DecidableEq, Repr

/-- One `edges.entry(edge.from).or_insert(HashMap::new()).insert(...)` step of
`Engine::new`; `none` models the `assert!` firing because the key
`(edge.from, edge.condition)` was already present. -/
def tableInsert : List (DFANode × List (Char × DFANode)) → DFAEdge →
    Option (List (DFANode × List (Char × DFANode)))
  | [], e => some [(e.from_, [(e.condition, e.to_)])]
  | (k, m) :: rest, e =>
    if k = e.from_ then
      match aFind m e.condition with
      | some _ => none
      | none => some ((k, m ++ [(e.condition, e.to_)]) :: rest)
    else
      match tableInsert rest e with
      | none => none
      | some rest => some ((k, m) :: rest)

/-- The `for edge in dfa.edges` loop of `Engine::new`. -/
def buildTable (t : List (DFANode × List (Char × DFANode))) :
    List DFAEdge → Option (List (DFANode × List (Char × DFANode)))
  | [] => some t
  | e :: rest =>
    match tableInsert t e with
    | none => none
    | some t => buildTable t rest

/-- engine.rs `Engine::new`; `none` models the assertion failure raised when
two edges of the supplied DFA share `(from, condition)`. -/
def Engine.new (dfa : DFA) : Option Engine :=
  match buildTable [] dfa.edges with
  | none => none
  | some t => some ⟨dfa.start, t⟩

/-- Transition lookup of `match_string`: `self.edges.get(&current)` followed by
`edge.get(&c)`. -/
def Engine.lookup (eng : Engine) (current : DFANode) (c : Char) : Option DFANode :=
  match aFind eng.edges current with
  | none => none
  | some m => aFind m c

/-- The `loop` of engine.rs `match_string`, with the current state explicit. -/
def matchLoop (eng : Engine) : DFANode → List Char → Bool
  | current, [] => current.is_acceptor
  | current, c :: rest =>
    match eng.lookup current c with
    | none => false
    | some t => matchLoop eng t rest

/-- engine.rs `Engine::match_string`. -/
def Engine.match_string (eng : Engine) (s : List Char) : Bool :=
  matchLoop eng eng.start s

/-- The full pipeline of main.rs: build the NFA from a fresh allocator,
eliminate epsilon edges, determinize from a fresh `DFAAllocator`, build the
engine and run it; `none` when a fuel bound or the `Engine::new` assertion (or
an `unwrap`) aborts the pipeline. -/
def pipeline (tnFuel rteFuel loopFuel psFuel : Nat) (expr : RegExpr)
    (s : List Char) : Option Bool :=
  let (nfa, _) := build_nfa expr 0
  match merge_by_epsilon tnFuel rteFuel nfa with
  | none => none
  | some g =>
    match build_dfa loopFuel psFuel g [] with
    | none => none
    | some (dfa, _) =>
      match Engine.new dfa with
      | none => none
      | some eng => some (eng.match_string s)

/-- Reference language-membership semantics of an expression tree, as the
specification states it: `Character` matches that single character, `Range`
any listed character, `Sequence` concatenation in order, `Branch` alternation,
`Repeation` zero or more repetitions. -/
inductive Matches : RegExpr → List Char → Prop where
  | character (c : Char) : Matches (.Character c) [c]
  | range {c : Char} {cs : List Char} : c ∈ cs → Matches (.Range cs) [c]
  | seqNil : Matches (.Sequence []) []
  | seqCons {e : RegExpr} {es : List RegExpr} {s1 s2 : List Char} :
      Matches e s1 → Matches (.Sequence es) s2 →
      Matches (.Sequence (e :: es)) (s1 ++ s2)
  | branchL {l r : RegExpr} {s : List Char} :
      Matches l s → Matches (.Branch l r) s
  | branchR {l r : RegExpr} {s : List Char} :
      Matches r s → Matches (.Branch l r) s
  | repNil {e : RegExpr} : Matches (.Repeation e) []
  | repCons {e : RegExpr} {s1 s2 : List Char} :
      Matches e s1 → Matches (.Repeation e) s2 →
      Matches (.Repeation e) (s1 ++ s2)

/-! ### Concrete inputs used to settle individual claims -/

/-- The epsilon-free graph of the regular expression "a" (what
`merge_by_epsilon` returns for `build_nfa (Character 'a')`): one labelled edge
`0 --a--> 1`, acceptor `1`. -/
def gChar : Graph := ⟨⟨0⟩, [⟨some 'a', ⟨0⟩, ⟨1⟩⟩], [⟨1⟩]⟩

/-- A graph separating the acceptor rule of `merge_by_epsilon` from the
specified epsilon-closure rule: edges `0 --a--> 2`, `0 --b--> 1`,
`1 --eps--> 2`, acceptor `1`. Its language is {"b"}: node 2 accepts nothing
and its epsilon closure is empty. -/
def gEps : Graph :=
  ⟨⟨0⟩, [⟨some 'a', ⟨0⟩, ⟨2⟩⟩, ⟨some 'b', ⟨0⟩, ⟨1⟩⟩, ⟨none, ⟨1⟩, ⟨2⟩⟩], [⟨1⟩]⟩

/-- Claim C1: the full pipeline is claimed to decide anchored membership in
the expression's language. It does not: for the expression `Character 'a'`
and the string "a" — a member of the language under the reference
semantics — `build_dfa` emits two conflicting edges for `('a', start)`, so
`Engine::new`'s assertion fires and the pipeline aborts instead of returning
`true` (the fuel values are ample for this input: the worklist loop
stabilises after two iterations and the powerset iterator takes at most six
steps on a two-node universe). -/
theorem claim1_pipeline_fault :
    Matches (.Character 'a') ['a'] ∧
    pipeline 10 10 5 50 (.Character 'a') ['a'] = none :=
  ⟨Matches.character 'a', by decide⟩

/-- Claim C2: on the epsilon-free graph `gChar`, `build_dfa` returns a DFA
holding two distinct edges that share both origin and condition — the subset
`{1}` and the subset `{0,1}` each get an edge for `'a'` from the start node —
so the at-most-one-edge-per-`(DFANode, char)` property fails. -/
theorem claim2_nondeterministic_dfa :
    (build_dfa 5 50 gChar []).map (fun p => p.1.edges) =
      some [⟨'a', ⟨0, false⟩, ⟨1, false⟩⟩, ⟨'a', ⟨0, false⟩, ⟨2, false⟩⟩] ∧
    (⟨'a', ⟨0, false⟩, ⟨1, false⟩⟩ : DFAEdge).from_ =
      (⟨'a', ⟨0, false⟩, ⟨2, false⟩⟩ : DFAEdge).from_ ∧
    (⟨'a', ⟨0, false⟩, ⟨1, false⟩⟩ : DFAEdge).condition =
      (⟨'a', ⟨0, false⟩, ⟨2, false⟩⟩ : DFAEdge).condition ∧
    (⟨'a', ⟨0, false⟩, ⟨1, false⟩⟩ : DFAEdge) ≠ ⟨'a', ⟨0, false⟩, ⟨2, false⟩⟩ := by
  decide

/-- Claim C4: on `gChar` the worklist iteration does not record one union
destination per character. Processing the start subset `{0}` for the character
`'a'`, the union of edge targets is the single subset `{1}`, but the code
allocates a `DFANode` for every enumerated subset containing the target —
here both `{1}` (id 1) and `{0,1}` (id 2) — and records one `DFAEdge` for
each, always leaving from the start node. -/
theorem claim4_worklist_divergence :
    build_dfa 5 50 gChar [] =
      some (⟨⟨0, false⟩,
             [⟨'a', ⟨0, false⟩, ⟨1, false⟩⟩, ⟨'a', ⟨0, false⟩, ⟨2, false⟩⟩],
             []⟩,
            [(⟨0, false⟩, [⟨0⟩]), (⟨1, false⟩, [⟨1⟩]), (⟨2, false⟩, [⟨0⟩, ⟨1⟩])]) ∧
    (([⟨'a', ⟨0, false⟩, ⟨1, false⟩⟩, ⟨'a', ⟨0, false⟩, ⟨2, false⟩⟩] :
        List DFAEdge).filter
          (fun e => decide (e.from_ = ⟨0, false⟩) && decide (e.condition = 'a'))).length = 2 := by
  decide

/-- Claim C5: in `merge_by_epsilon gEps`, node 2 becomes an acceptor although
node 2 is not an input acceptor and its epsilon closure is empty (so no node
of its closure is an acceptor either): the code also spreads acceptance
forward from the acceptor 1 onto everything epsilon-reachable from it. This
changes the language: the output accepts "a", the input language is {"b"}. -/
theorem claim5_acceptor_overextension :
    merge_by_epsilon 10 10 gEps =
      some ⟨⟨0⟩, [⟨some 'a', ⟨0⟩, ⟨2⟩⟩, ⟨some 'b', ⟨0⟩, ⟨1⟩⟩], [⟨1⟩, ⟨2⟩]⟩ ∧
    (⟨2⟩ : Node) ∈ [(⟨1⟩ : Node), ⟨2⟩] ∧
    (⟨2⟩ : Node) ∉ gEps.acceptors ∧
    reachable_through_epsilon (mergeMaps gEps.edges).1 10 ⟨2⟩ [] =
      some ([], [⟨2⟩]) := by
  decide

/-- Claim C6, counterexample: for the empty `Sequence` the claim says the
returned graph's start is itself an acceptor; in the code the acceptor is a
fresh end node reached from the start by an epsilon edge, and the start is
not an acceptor. -/
theorem claim6_counterexample :
    (build_nfa (.Sequence []) 0).1.start ∉ (build_nfa (.Sequence []) 0).1.acceptors ∧
    (build_nfa (.Sequence []) 0).1.acceptors = [⟨1⟩] := by
  decide

/-! ### Claim C10: the constructed DFA never records any acceptor -/

/-- Definitional unfolding of one check of `build_dfa`'s `while` loop. -/
theorem buildDfaLoop_eq (pf : Nat) (g : Graph) (an : List Node) (sd : DFANode)
    (fuel : Nat) (q v : List DFANode) (dfa : DFA) (alloc : DFAAllocator) :
    buildDfaLoop pf g an sd fuel q v dfa alloc =
      if q = [] then some (dfa, alloc)
      else
        match fuel with
        | 0 => none
        | fuel + 1 =>
          match succeeding_subsets pf (aGet alloc sd) g.edges an alloc with
          | none => none
          | some (m, alloc) =>
            let t := dfaIter sd m dfa.edges v
            buildDfaLoop pf g an sd fuel t.2.2 t.2.1
              { dfa with edges := t.1 } alloc := by
  cases fuel <;> rfl

/-- The worklist loop of `build_dfa` only ever updates `dfa.edges`; the
acceptor set it returns is the one it was given. -/
theorem buildDfaLoop_acceptors (pf : Nat) (g : Graph) (an : List Node)
    (sd : DFANode) :
    ∀ (fuel : Nat) (q v : List DFANode) (dfa : DFA) (alloc : DFAAllocator)
      (r : DFA × DFAAllocator),
      buildDfaLoop pf g an sd fuel q v dfa alloc = some r →
      r.1.acceptors = dfa.acceptors := by
  intro fuel
  induction fuel with
  | zero =>
    intro q v dfa alloc r h
    rw [buildDfaLoop_eq] at h
    by_cases hq : q = []
    · rw [if_pos hq] at h
      cases h
      rfl
    · rw [if_neg hq] at h
      cases h
  | succ n ih =>
    intro q v dfa alloc r h
    rw [buildDfaLoop_eq] at h
    by_cases hq : q = []
    · rw [if_pos hq] at h
      cases h
      rfl
    · rw [if_neg hq] at h
      cases hss : succeeding_subsets pf (aGet alloc sd) g.edges an alloc with
      | none => rw [hss] at h; cases h
      | some p =>
        rw [hss] at h
        have h2 := ih _ _ _ _ _ h
        simpa using h2

/-- Claim C10: `build_dfa` never inserts any `DFANode` into `dfa.acceptors`
(the code's `//TODO: add acceptors` is never done), so whenever it returns a
DFA, that DFA's acceptor set is empty. -/
theorem claim10_no_acceptors (lf pf : Nat) (g : Graph) (alloc : DFAAllocator)
    (dfa : DFA) (alloc2 : DFAAllocator)
    (h : build_dfa lf pf g alloc = some (dfa, alloc2)) : dfa.acceptors = [] := by
  have := buildDfaLoop_acceptors pf g
    (sortNodes (g.edges.flatMap (fun e => [e.from_, e.to_])))
    (DFAAllocator.new_node alloc (sortNodes [g.start])).1 lf
    [(DFAAllocator.new_node alloc (sortNodes [g.start])).1] []
    ⟨(DFAAllocator.new_node alloc (sortNodes [g.start])).1, [], []⟩
    (DFAAllocator.new_node alloc (sortNodes [g.start])).2 (dfa, alloc2)
  exact this h

/-- Witness for claim C10 at the concrete graph `gChar`. -/
theorem claim10_no_acceptors_witness :
    build_dfa 5 50 gChar [] =
      some (⟨⟨0, false⟩,
             [⟨'a', ⟨0, false⟩, ⟨1, false⟩⟩, ⟨'a', ⟨0, false⟩, ⟨2, false⟩⟩],
             []⟩,
            [(⟨0, false⟩, [⟨0⟩]), (⟨1, false⟩, [⟨1⟩]), (⟨2, false⟩, [⟨0⟩, ⟨1⟩])]) ∧
    (⟨⟨0, false⟩,
      [⟨'a', ⟨0, false⟩, ⟨1, false⟩⟩, ⟨'a', ⟨0, false⟩, ⟨2, false⟩⟩],
      []⟩ : DFA).acceptors = [] :=
  ⟨by decide, claim10_no_acceptors 5 50 gChar []
    ⟨⟨0, false⟩,
     [⟨'a', ⟨0, false⟩, ⟨1, false⟩⟩, ⟨'a', ⟨0, false⟩, ⟨2, false⟩⟩], []⟩
    [(⟨0, false⟩, [⟨0⟩]), (⟨1, false⟩, [⟨1⟩]), (⟨2, false⟩, [⟨0⟩, ⟨1⟩])]
    (by decide)⟩

/-! ### Claim C7: the matching loop of the engine -/

/-- Transition-table iteration as a fold: start at `eng.start` and apply one
lookup per character, propagating a missing transition as `none`. -/
def runFold (eng : Engine) (s : List Char) : Option DFANode :=
  s.foldl
    (fun o c =>
      match o with
      | none => none
      | some st => eng.lookup st c)
    (some eng.start)

/-- A missing transition propagates through the rest of the fold. -/
theorem runFold_none (eng : Engine) :
    ∀ s : List Char,
      s.foldl
        (fun o c =>
          match o with
          | none => none
          | some st => eng.lookup st c)
        none = none := by
  intro s
  induction s with
  | nil => rfl
  | cons c rest ih => simpa using ih

/-- `matchLoop` agrees with the fold over the transition table. -/
theorem matchLoop_eq_fold (eng : Engine) :
    ∀ (s : List Char) (cur : DFANode),
      matchLoop eng cur s =
        (s.foldl
          (fun o c =>
            match o with
            | none => none
            | some st => eng.lookup st c)
          (some cur)).elim false (fun st => st.is_acceptor) := by
  intro s
  induction s with
  | nil => intro cur; rfl
  | cons c rest ih =>
    intro cur
    simp only [matchLoop, List.foldl_cons]
    cases h : eng.lookup cur c with
    | none => simp [h, runFold_none eng rest]
    | some t => simp [h, ih t]

/-- Claim C7: `match_string` starts at the DFA start state, consumes the
characters strictly left to right (it equals the left fold of single-step
table lookups from the start state), returns `false` as soon as a character
has no table entry for the current state — whatever input follows — and once
the input is exhausted returns exactly the `is_acceptor` status of the state
reached. It is a pure function of the engine and the string, so calls are
independent. -/
theorem claim7_match_semantics (eng : Engine) (s : List Char) :
    (eng.match_string s = (runFold eng s).elim false (fun st => st.is_acceptor)) ∧
    (∀ pre c post st, s = pre ++ c :: post → runFold eng pre = some st →
       eng.lookup st c = none → eng.match_string s = false) := by
  constructor
  · exact matchLoop_eq_fold eng s eng.start
  · intro pre c post st hs hpre hlook
    have h1 : eng.match_string s =
        (runFold eng s).elim false (fun st => st.is_acceptor) :=
      matchLoop_eq_fold eng s eng.start
    have h2 : runFold eng s = none := by
      unfold runFold at hpre ⊢
      rw [hs, List.foldl_append, hpre]
      simp only [List.foldl_cons, hlook]
      exact runFold_none eng post
    rw [h1, h2]
    rfl

/-- Witness for claim C7: an engine with an empty table rejects "x" because
the very first lookup is absent. -/
theorem claim7_match_semantics_witness :
    (['x'] : List Char) = [] ++ 'x' :: [] ∧
    Engine.match_string ⟨⟨0, false⟩, []⟩ ['x'] = false :=
  ⟨rfl,
   (claim7_match_semantics ⟨⟨0, false⟩, []⟩ ['x']).2 [] 'x' [] ⟨0, false⟩
     rfl rfl rfl⟩

/-! ### Claim C6: shape of the `Sequence` construction -/

/-- Membership in a `BTreeSet` insertion. -/
theorem mem_insertEdge {e f : Edge} :
    ∀ {l : List Edge}, e ∈ insertEdge f l ↔ e = f ∨ e ∈ l := by
  intro l
  induction l with
  | nil => simp [insertEdge]
  | cons g gs ih =>
    by_cases h1 : f.ltb g
    · simp [insertEdge, h1]
    · by_cases h2 : f = g
      · subst h2
        simp only [insertEdge, h1, if_false, if_pos rfl, Bool.false_eq_true]
        constructor
        · exact Or.inr
        · rintro (rfl | hm)
          · exact List.mem_cons_self _ _
          · exact hm
      · simp only [insertEdge, h1, h2, if_false, Bool.false_eq_true, List.mem_cons, ih]
        tauto

/-- Membership after folding `insertEdge` over mapped elements. -/
theorem mem_foldl_insertEdge {α : Type} (f : α → Edge) :
    ∀ (xs : List α) (init : List Edge) (e : Edge),
      e ∈ xs.foldl (fun acc x => insertEdge (f x) acc) init ↔
        (∃ x ∈ xs, e = f x) ∨ e ∈ init := by
  intro xs
  induction xs with
  | nil => simp
  | cons x rest ih =>
    intro init e
    simp only [List.foldl_cons, ih, mem_insertEdge, List.mem_cons]
    constructor
    · rintro (⟨y, hy, rfl⟩ | (rfl | hm))
      · exact Or.inl ⟨y, Or.inr hy, rfl⟩
      · exact Or.inl ⟨x, Or.inl rfl, rfl⟩
      · exact Or.inr hm
    · rintro (⟨y, (rfl | hy), rfl⟩ | hm)
      · exact Or.inr (Or.inl rfl)
      · exact Or.inl ⟨y, hy, rfl⟩
      · exact Or.inr (Or.inr hm)

/-- Characterisation of the `Sequence` fold: initial edges are kept, the
final `current_end` is the last sub-NFA's acceptor set (or the initial one
when there is no sub-NFA), the initial `current_end` is epsilon-linked to the
first sub-NFA's start, consecutive sub-NFAs are epsilon-linked acceptors to
start, and all sub-edges are kept. -/
theorem seqChain_spec :
    ∀ (nfas : List Graph) (es0 : List Edge) (ce0 : List Node),
      (∀ e ∈ es0, e ∈ (seqChain nfas (es0, ce0)).1) ∧
      ((seqChain nfas (es0, ce0)).2 =
        (nfas.getLast?).elim ce0 (fun gl => gl.acceptors)) ∧
      (∀ g1 gs, nfas = g1 :: gs → ∀ x ∈ ce0,
        (⟨none, x, g1.start⟩ : Edge) ∈ (seqChain nfas (es0, ce0)).1) ∧
      (∀ p ∈ nfas.zip nfas.tail, ∀ acc ∈ p.1.acceptors,
        (⟨none, acc, p.2.start⟩ : Edge) ∈ (seqChain nfas (es0, ce0)).1) ∧
      (∀ gi ∈ nfas, ∀ e ∈ gi.edges, e ∈ (seqChain nfas (es0, ce0)).1) := by
  intro nfas
  induction nfas with
  | nil =>
    intro es0 ce0
    refine ⟨fun e he => he, rfl, ?_, ?_, ?_⟩ <;> simp [seqChain]
  | cons nfa rest ih =>
    intro es0 ce0
    have hstep : seqChain (nfa :: rest) (es0, ce0) =
        seqChain rest
          (ce0.foldl (fun acc a => insertEdge ⟨none, a, nfa.start⟩ acc)
            (nfa.edges.foldl (fun acc e => insertEdge e acc) es0),
           nfa.acceptors) := rfl
    set es1 := ce0.foldl (fun acc a => insertEdge ⟨none, a, nfa.start⟩ acc)
      (nfa.edges.foldl (fun acc e => insertEdge e acc) es0) with hes1
    have hes0 : ∀ e ∈ es0, e ∈ es1 := by
      intro e he
      rw [hes1]
      rw [mem_foldl_insertEdge (fun a => (⟨none, a, nfa.start⟩ : Edge))]
      refine Or.inr ?_
      rw [mem_foldl_insertEdge (fun e => e)]
      exact Or.inr he
    obtain ⟨ih1, ih2, ih3, ih4, ih5⟩ := ih es1 nfa.acceptors
    refine ⟨?_, ?_, ?_, ?_, ?_⟩
    · intro e he
      rw [hstep]
      exact ih1 e (hes0 e he)
    · rw [hstep, ih2]
      cases rest with
      | nil => rfl
      | cons r rs =>
        rw [List.getLast?_cons_cons]
        cases h : (r :: rs).getLast? with
        | none => simp at h
        | some gl => rfl
    · rintro g1 gs heq x hx
      obtain ⟨rfl, rfl⟩ : nfa = g1 ∧ rest = gs := by
        injection heq with h1 h2
        exact ⟨h1, h2⟩
      rw [hstep]
      refine ih1 _ ?_
      rw [hes1, mem_foldl_insertEdge (fun y => (⟨none, y, nfa.start⟩ : Edge))]
      exact Or.inl ⟨x, hx, rfl⟩
    · intro p hp acc hacc
      rw [hstep]
      cases rest with
      | nil => simp at hp
      | cons r rs =>
        simp only [List.zip_cons_cons, List.tail_cons, List.mem_cons] at hp
        rcases hp with rfl | hp
        · exact ih3 r rs rfl acc hacc
        · exact ih4 p hp acc hacc
    · intro gi hgi e he
      rw [hstep]
      rcases List.mem_cons.mp hgi with rfl | hgi
      · refine ih1 e ?_
        rw [hes1]
        rw [mem_foldl_insertEdge (fun a => (⟨none, a, gi.start⟩ : Edge))]
        refine Or.inr ?_
        rw [mem_foldl_insertEdge (fun e => e)]
        exact Or.inl ⟨e, he, rfl⟩
      · exact ih5 gi hgi e he

/-- Claim C6 (amended): on `Sequence v`, `build_nfa` allocates a fresh start
node and a fresh end node; the overall start is the fresh node, epsilon-linked
to the first sub-result's start when `v` is non-empty; every acceptor of each
left sub-result is epsilon-linked to the start of the next sub-result; every
acceptor of the last sub-result is epsilon-linked to the fresh end node, which
is the sole overall acceptor; all sub-edges are kept; and for the empty list
the graph is exactly `start --eps--> end` with `end` the acceptor, so the
empty string is still accepted (via the epsilon edge — not via the start
being an acceptor, which it is not). -/
theorem claim6_sequence_shape (v : List RegExpr) (a : NodeAllocator) :
    (build_nfa (.Sequence v) a).1.start = ⟨a⟩ ∧
    (build_nfa (.Sequence v) a).1.acceptors = [⟨(build_nfa_list v (a + 1)).2⟩] ∧
    (∀ g1 gs, (build_nfa_list v (a + 1)).1 = g1 :: gs →
      (⟨none, ⟨a⟩, g1.start⟩ : Edge) ∈ (build_nfa (.Sequence v) a).1.edges) ∧
    (∀ p ∈ ((build_nfa_list v (a + 1)).1).zip ((build_nfa_list v (a + 1)).1).tail,
      ∀ acc ∈ p.1.acceptors,
        (⟨none, acc, p.2.start⟩ : Edge) ∈ (build_nfa (.Sequence v) a).1.edges) ∧
    (∀ gl, ((build_nfa_list v (a + 1)).1).getLast? = some gl →
      ∀ acc ∈ gl.acceptors,
        (⟨none, acc, ⟨(build_nfa_list v (a + 1)).2⟩⟩ : Edge) ∈
          (build_nfa (.Sequence v) a).1.edges) ∧
    (∀ gi ∈ (build_nfa_list v (a + 1)).1, ∀ e ∈ gi.edges,
      e ∈ (build_nfa (.Sequence v) a).1.edges) ∧
    (v = [] →
      (build_nfa (.Sequence v) a).1.edges =
        [⟨none, ⟨a⟩, ⟨(build_nfa_list v (a + 1)).2⟩⟩] ∧
      (build_nfa (.Sequence v) a).1.start ∉ (build_nfa (.Sequence v) a).1.acceptors) := by
  have hunfold : build_nfa (.Sequence v) a =
      (⟨⟨a⟩,
        (seqChain (build_nfa_list v (a + 1)).1 ([], [⟨a⟩])).2.foldl
          (fun acc x =>
            insertEdge ⟨none, x, ⟨(build_nfa_list v (a + 1)).2⟩⟩ acc)
          (seqChain (build_nfa_list v (a + 1)).1 ([], [⟨a⟩])).1,
        [⟨(build_nfa_list v (a + 1)).2⟩]⟩,
       (build_nfa_list v (a + 1)).2 + 1) := rfl
  obtain ⟨s1, s2, s3, s4, s5⟩ :=
    seqChain_spec (build_nfa_list v (a + 1)).1 [] [⟨a⟩]
  have hkeep : ∀ e ∈ (seqChain (build_nfa_list v (a + 1)).1 ([], [⟨a⟩])).1,
      e ∈ (build_nfa (.Sequence v) a).1.edges := by
    intro e he
    rw [hunfold]
    simp only []
    rw [mem_foldl_insertEdge
      (fun x => (⟨none, x, ⟨(build_nfa_list v (a + 1)).2⟩⟩ : Edge))]
    exact Or.inr he
  refine ⟨by rw [hunfold], by rw [hunfold], ?_, ?_, ?_, ?_, ?_⟩
  · intro g1 gs heq
    exact hkeep _ (s3 g1 gs heq ⟨a⟩ (List.mem_singleton.mpr rfl))
  · intro p hp acc hacc
    exact hkeep _ (s4 p hp acc hacc)
  · intro gl hgl acc hacc
    rw [hunfold]
    simp only []
    rw [mem_foldl_insertEdge
      (fun x => (⟨none, x, ⟨(build_nfa_list v (a + 1)).2⟩⟩ : Edge))]
    refine Or.inl ⟨acc, ?_, rfl⟩
    rw [s2, hgl]
    exact hacc
  · intro gi hgi e he
    exact hkeep _ (s5 gi hgi e he)
  · intro hv
    subst hv
    refine ⟨rfl, ?_⟩
    intro hmem
    simp [hunfold, build_nfa_list] at hmem

/-- Witness for claim C6 at `Sequence [Character 'b', Character 'c']` and a
fresh allocator: the fresh start 0 is epsilon-linked to the first sub-start 1,
the first sub-acceptor 2 is epsilon-linked to the second sub-start 3, the last
sub-acceptor 4 is epsilon-linked to the fresh end 5, which is the sole overall
acceptor. -/
theorem claim6_sequence_shape_witness :
    (build_nfa (.Sequence [.Character 'b', .Character 'c']) 0).1.acceptors = [⟨5⟩] ∧
    (⟨none, ⟨0⟩, ⟨1⟩⟩ : Edge) ∈
      (build_nfa (.Sequence [.Character 'b', .Character 'c']) 0).1.edges ∧
    (⟨none, ⟨2⟩, ⟨3⟩⟩ : Edge) ∈
      (build_nfa (.Sequence [.Character 'b', .Character 'c']) 0).1.edges ∧
    (⟨none, ⟨4⟩, ⟨5⟩⟩ : Edge) ∈
      (build_nfa (.Sequence [.Character 'b', .Character 'c']) 0).1.edges := by
  have h := claim6_sequence_shape [.Character 'b', .Character 'c'] 0
  have hzip : ((build_nfa (.Character 'b') 1).1, (build_nfa (.Character 'c') 3).1) ∈
      (build_nfa_list [RegExpr.Character 'b', RegExpr.Character 'c'] (0 + 1)).1.zip
        (build_nfa_list [RegExpr.Character 'b', RegExpr.Character 'c'] (0 + 1)).1.tail := by
    decide
  have hlast : (build_nfa_list [RegExpr.Character 'b', RegExpr.Character 'c'] (0 + 1)).1.getLast? =
      some (build_nfa (RegExpr.Character 'c') 3).1 := by decide
  refine ⟨h.2.1, ?_, ?_, ?_⟩
  · have := h.2.2.1 (build_nfa (.Character 'b') 1).1
      [(build_nfa (.Character 'c') 3).1] rfl
    simpa using this
  · have := h.2.2.2.1
      ((build_nfa (.Character 'b') 1).1, (build_nfa (.Character 'c') 3).1)
      hzip ⟨2⟩ (by decide)
    simpa using this
  · have := h.2.2.2.2.1 (build_nfa (.Character 'c') 3).1 hlast ⟨4⟩ (by decide)
    simpa using this

/-! ### Claim C8: the `Engine::new` assertion -/

/-- Lookup in a transition table under construction (the composition of the
two `get`s of `match_string`). -/
def tLookup (t : List (DFANode × List (Char × DFANode))) (f : DFANode)
    (c : Char) : Option DFANode :=
  match aFind t f with
  | none => none
  | some m => aFind m c

/-- Two DFA edges collide when they share origin and condition. -/
def Collide (e1 e2 : DFAEdge) : Prop :=
  e1.from_ = e2.from_ ∧ e1.condition = e2.condition

instance : DecidableEq DFAEdge := inferInstance

instance (e1 e2 : DFAEdge) : Decidable (Collide e1 e2) := by
  unfold Collide; infer_instance

/-- `aFind` over an appended singleton. -/
theorem aFind_append {β : Type} (m : List (Char × β)) (c0 : Char) (v : β)
    (q : Char) :
    aFind (m ++ [(c0, v)]) q =
      match aFind m q with
      | some r => some r
      | none => if c0 = q then some v else none := by
  induction m with
  | nil => rfl
  | cons p rest ih =>
    obtain ⟨k, w⟩ := p
    by_cases h : k = q
    · simp [aFind, h]
    · simp only [List.cons_append, aFind, h, if_false, Bool.false_eq_true]
      exact ih

/-- Lookup distributes over a `cons` of the table. -/
theorem tLookup_cons (k : DFANode) (m : List (Char × DFANode))
    (rest : List (DFANode × List (Char × DFANode))) (f : DFANode) (c : Char) :
    tLookup ((k, m) :: rest) f c = if k = f then aFind m c else tLookup rest f c := by
  by_cases h : k = f <;> simp [tLookup, aFind, h]

/-- `tableInsert` fails exactly when the edge's key is already present. -/
theorem tableInsert_none_iff :
    ∀ (t : List (DFANode × List (Char × DFANode))) (e : DFAEdge),
      tableInsert t e = none ↔ (tLookup t e.from_ e.condition).isSome := by
  intro t e
  induction t with
  | nil => simp [tableInsert, tLookup, aFind]
  | cons p rest ih =>
    obtain ⟨k, m⟩ := p
    rw [tLookup_cons]
    by_cases hk : k = e.from_
    · cases hm : aFind m e.condition with
      | none => simp [tableInsert, hk, hm]
      | some w => simp [tableInsert, hk, hm]
    · cases hrec : tableInsert rest e with
      | none =>
        have h2 := ih.mp hrec
        simp [tableInsert, hk, hrec, h2]
      | some t2 =>
        have h2 : ¬(tLookup rest e.from_ e.condition).isSome := by
          intro hs
          rw [ih.mpr hs] at hrec
          cases hrec
        simp [tableInsert, hk, hrec, h2]

/-- Effect of a successful `tableInsert` on lookups: the inserted key now maps
to the edge's target and every other key is untouched. -/
theorem tableInsert_some_lookup :
    ∀ (t : List (DFANode × List (Char × DFANode))) (e : DFAEdge)
      (t2 : List (DFANode × List (Char × DFANode))),
      tableInsert t e = some t2 →
      ∀ f c, tLookup t2 f c =
        if f = e.from_ ∧ c = e.condition then some e.to_ else tLookup t f c := by
  intro t
  induction t with
  | nil =>
    intro e t2 h f c
    have h2 : t2 = [(e.from_, [(e.condition, e.to_)])] := by
      simpa [tableInsert] using h.symm
    subst h2
    rw [tLookup_cons]
    by_cases hf : e.from_ = f
    · rw [if_pos hf]
      by_cases hc : e.condition = c
      · rw [if_pos ⟨hf.symm, hc.symm⟩]
        simp [aFind, hc]
      · rw [if_neg (fun h3 => hc h3.2.symm)]
        simp [aFind, hc, tLookup]
    · rw [if_neg hf, if_neg (fun h3 => hf h3.1.symm)]
  | cons p rest ih =>
    intro e t2 h f c
    obtain ⟨k, m⟩ := p
    by_cases hk : k = e.from_
    · cases hm : aFind m e.condition with
      | some w => simp [tableInsert, hk, hm] at h
      | none =>
        have h2 : t2 = (k, m ++ [(e.condition, e.to_)]) :: rest := by
          simp only [tableInsert, if_pos hk, hm] at h
          injection h with h3
          exact h3.symm
        subst h2
        rw [tLookup_cons, tLookup_cons]
        by_cases hf : k = f
        · rw [if_pos hf, if_pos hf, aFind_append]
          by_cases hcc : c = e.condition
          · subst hcc
            have hcond : f = e.from_ ∧ e.condition = e.condition :=
              ⟨hf.symm.trans hk, rfl⟩
            rw [if_pos hcond, hm]
            simp
          · have hcond : ¬(f = e.from_ ∧ c = e.condition) := fun h3 => hcc h3.2
            rw [if_neg hcond]
            cases hc : aFind m c with
            | some w => simp [hc]
            | none =>
              exact if_neg (fun h3 : e.condition = c => hcc h3.symm)
        · rw [if_neg hf, if_neg hf,
            if_neg (fun h3 : f = e.from_ ∧ c = e.condition =>
              hf (hk.trans h3.1.symm))]
    · cases hrec : tableInsert rest e with
      | none => simp [tableInsert, hk, hrec] at h
      | some rest2 =>
        have h2 : t2 = (k, m) :: rest2 := by
          simp only [tableInsert, if_neg hk, hrec] at h
          injection h with h3
          exact h3.symm
        subst h2
        rw [tLookup_cons, tLookup_cons]
        have hstep := ih e rest2 hrec f c
        by_cases hf : k = f
        · rw [if_pos hf, if_pos hf,
            if_neg (fun h3 : f = e.from_ ∧ c = e.condition =>
              hk (hf.trans h3.1))]
        · rw [if_neg hf, if_neg hf]
          exact hstep

/-- `Collide` is symmetric. -/
theorem Collide_comm {e1 e2 : DFAEdge} : Collide e1 e2 ↔ Collide e2 e1 := by
  unfold Collide
  constructor <;> rintro ⟨h1, h2⟩ <;> exact ⟨h1.symm, h2.symm⟩

/-- The `for` loop of `Engine::new` succeeds iff no processed edge collides
with an earlier processed edge or with an entry already in the table. -/
theorem buildTable_isSome_iff :
    ∀ (es : List DFAEdge) (t : List (DFANode × List (Char × DFANode))),
      (buildTable t es).isSome ↔
        (es.Pairwise (fun e1 e2 => ¬Collide e1 e2) ∧
         ∀ e ∈ es, ¬(tLookup t e.from_ e.condition).isSome) := by
  intro es
  induction es with
  | nil => intro t; simp [buildTable]
  | cons e rest ih =>
    intro t
    cases hins : tableInsert t e with
    | none =>
      simp only [buildTable, hins]
      constructor
      · intro h; cases h
      · rintro ⟨-, hall⟩
        exact absurd ((tableInsert_none_iff t e).mp hins)
          (hall e (List.mem_cons_self e rest))
    | some t1 =>
      have hno : ¬(tLookup t e.from_ e.condition).isSome := by
        intro hs
        rw [(tableInsert_none_iff t e).mpr hs] at hins
        cases hins
      have hrw := tableInsert_some_lookup t e t1 hins
      simp only [buildTable, hins]
      rw [ih t1]
      constructor
      · rintro ⟨hp, hall⟩
        refine ⟨List.pairwise_cons.mpr ⟨?_, hp⟩, ?_⟩
        · intro e2 he2 hcol
          apply hall e2 he2
          rw [hrw e2.from_ e2.condition,
            if_pos ⟨(Collide_comm.mp hcol).1, (Collide_comm.mp hcol).2⟩]
          rfl
        · intro e2 he2
          rcases List.mem_cons.mp he2 with rfl | he2
          · exact hno
          · intro hs
            apply hall e2 he2
            rw [hrw e2.from_ e2.condition]
            by_cases hcol : e2.from_ = e.from_ ∧ e2.condition = e.condition
            · rw [if_pos hcol]; rfl
            · rw [if_neg hcol]; exact hs
      · rintro ⟨hpc, hallc⟩
        obtain ⟨hhead, hp⟩ := List.pairwise_cons.mp hpc
        refine ⟨hp, ?_⟩
        intro e2 he2 hs
        rw [hrw e2.from_ e2.condition] at hs
        by_cases hcol : e2.from_ = e.from_ ∧ e2.condition = e.condition
        · exact hhead e2 he2 (Collide_comm.mp hcol)
        · rw [if_neg hcol] at hs
          exact hallc e2 (List.mem_cons_of_mem _ he2) hs

/-- A successful `Engine::new` fold preserves existing table entries and maps
every processed edge's key to its target. -/
theorem buildTable_lookup :
    ∀ (es : List DFAEdge) (t t2 : List (DFANode × List (Char × DFANode))),
      buildTable t es = some t2 →
      (∀ f c v, tLookup t f c = some v → tLookup t2 f c = some v) ∧
      (∀ e ∈ es, tLookup t2 e.from_ e.condition = some e.to_) := by
  intro es
  induction es with
  | nil =>
    intro t t2 h
    simp only [buildTable] at h
    injection h with h
    subst h
    exact ⟨fun f c v hv => hv, fun e he => absurd he (List.not_mem_nil e)⟩
  | cons e rest ih =>
    intro t t2 h
    cases hins : tableInsert t e with
    | none => simp [buildTable, hins] at h
    | some t1 =>
      simp only [buildTable, hins] at h
      have hno : ¬(tLookup t e.from_ e.condition).isSome := by
        intro hs
        rw [(tableInsert_none_iff t e).mpr hs] at hins
        cases hins
      have hrw := tableInsert_some_lookup t e t1 hins
      obtain ⟨ihmono, ihself⟩ := ih t1 t2 h
      have hmono : ∀ f c v, tLookup t f c = some v → tLookup t2 f c = some v := by
        intro f c v hv
        apply ihmono
        rw [hrw f c]
        by_cases hcol : f = e.from_ ∧ c = e.condition
        · exact absurd (by rw [← hcol.1, ← hcol.2, hv]; rfl) hno
        · rw [if_neg hcol]; exact hv
      refine ⟨hmono, ?_⟩
      intro e2 he2
      rcases List.mem_cons.mp he2 with rfl | he2
      · apply ihmono
        rw [hrw e2.from_ e2.condition, if_pos ⟨rfl, rfl⟩]
      · exact ihself e2 he2

/-- Claim C8: `Engine::new` signals an assertion fault exactly when the
supplied DFA holds two distinct edges sharing `(from, condition)`; when no two
edges share a key, construction succeeds with the DFA's start state and a
table mapping each `(from, condition)` to the unique corresponding target.
(`dfa.edges` models a `HashSet<DFAEdge>`, hence the duplicate-free
hypothesis.) -/
theorem claim8_engine_assert (dfa : DFA) (hnd : dfa.edges.Nodup) :
    ((Engine.new dfa).isSome ↔
      ∀ e1 ∈ dfa.edges, ∀ e2 ∈ dfa.edges, e1 ≠ e2 → ¬Collide e1 e2) ∧
    (∀ eng, Engine.new dfa = some eng →
      eng.start = dfa.start ∧
      ∀ e ∈ dfa.edges, eng.lookup e.from_ e.condition = some e.to_) := by
  constructor
  · have hbase : ∀ e ∈ dfa.edges, ¬(tLookup [] e.from_ e.condition).isSome := by
      intro e he h
      cases h
    have hiff := buildTable_isSome_iff dfa.edges []
    have hnew : (Engine.new dfa).isSome = (buildTable [] dfa.edges).isSome := by
      unfold Engine.new
      cases buildTable [] dfa.edges <;> rfl
    rw [hnew, hiff]
    constructor
    · rintro ⟨hp, -⟩
      intro e1 he1 e2 he2 hne
      exact hp.forall (fun a b hab => fun hc => hab (Collide_comm.mp hc))
        he1 he2 hne
    · intro hforall
      refine ⟨?_, hbase⟩
      exact hnd.imp_of_mem (fun ha hb hne => hforall _ ha _ hb hne)
  · intro eng heng
    unfold Engine.new at heng
    cases ht : buildTable [] dfa.edges with
    | none => rw [ht] at heng; cases heng
    | some t =>
      rw [ht] at heng
      injection heng with heng
      subst heng
      refine ⟨rfl, ?_⟩
      intro e he
      have := (buildTable_lookup dfa.edges [] t ht).2 e he
      simpa [Engine.lookup, tLookup] using this

/-- Witness for claim C8: a one-edge DFA has no colliding pair, so
`Engine::new` succeeds on it. -/
theorem claim8_engine_assert_witness :
    (⟨⟨0, false⟩, [⟨'a', ⟨0, false⟩, ⟨1, false⟩⟩], []⟩ : DFA).edges.Nodup ∧
    (Engine.new ⟨⟨0, false⟩, [⟨'a', ⟨0, false⟩, ⟨1, false⟩⟩], []⟩).isSome := by
  refine ⟨by decide, ?_⟩
  apply (claim8_engine_assert
    ⟨⟨0, false⟩, [⟨'a', ⟨0, false⟩, ⟨1, false⟩⟩], []⟩ (by decide)).1.mpr
  intro e1 he1 e2 he2 hne
  simp at he1 he2
  subst he1
  subst he2
  exact absurd rfl hne

/-! ### Claim C3: the canonicalizing allocator -/

/-- Well-formedness of the `DFAAllocator` map: the registered identities are
exactly `0 .. len-1` in insertion order, and no two entries hold equal
subsets (the canonicalization invariant). -/
def WfAlloc (a : DFAAllocator) : Prop :=
  a.map Prod.fst = (List.range a.length).map (fun i => (⟨i, false⟩ : DFANode)) ∧
  a.Pairwise (fun p q => p.2 ≠ q.2)

/-- Under the no-duplicate-subsets invariant, an entry is determined by its
subset. -/
theorem alloc_snd_unique :
    ∀ {a : DFAAllocator}, a.Pairwise (fun p q => p.2 ≠ q.2) →
      ∀ {p q : DFANode × List Node}, p ∈ a → q ∈ a → p.2 = q.2 → p = q := by
  intro a
  induction a with
  | nil => intro _ p q hpm; cases hpm
  | cons x rest ih =>
    intro hp p q hpm hqm heq
    obtain ⟨hx, hrest⟩ := List.pairwise_cons.mp hp
    rcases List.mem_cons.mp hpm with hpx | hpr
    · rcases List.mem_cons.mp hqm with hqx | hqr
      · rw [hpx, hqx]
      · exact absurd (by rw [← hpx]; exact heq) (hx q hqr)
    · rcases List.mem_cons.mp hqm with hqx | hqr
      · exact absurd (by rw [← hqx]; exact heq.symm) (hx p hpr)
      · exact ih hrest hpr hqr heq

/-- Under the invariant, the `find` inside `new_node` returns exactly the
registered entry for the requested subset. -/
theorem alloc_find_of_mem :
    ∀ {a : DFAAllocator}, a.Pairwise (fun p q => p.2 ≠ q.2) →
      ∀ {d : DFANode} {s : List Node}, (d, s) ∈ a →
        a.find? (fun p => p.2 = s) = some (d, s) := by
  intro a
  induction a with
  | nil => intro _ d s hmem; cases hmem
  | cons x rest ih =>
    intro hp d s hmem
    obtain ⟨hx, hrest⟩ := List.pairwise_cons.mp hp
    by_cases hxs : x.2 = s
    · have hxe : x = (d, s) :=
        alloc_snd_unique hp (List.mem_cons_self x rest) hmem hxs
      rw [List.find?_cons_of_pos _ (by simp [hxs])]
      rw [hxe]
    · rcases List.mem_cons.mp hmem with heq | hmem
      · exact absurd (by rw [← heq]) hxs
      · rw [List.find?_cons_of_neg _ (by simp [hxs])]
        exact ih hrest hmem

/-- When no entry holds the requested subset, the `find` fails. -/
theorem alloc_find_of_not_mem :
    ∀ {a : DFAAllocator} {s : List Node}, (∀ d, (d, s) ∉ a) →
      a.find? (fun p => p.2 = s) = none := by
  intro a s habs
  apply List.find?_eq_none.mpr
  intro p hp
  simp only [decide_eq_true_eq]
  intro hps
  apply habs p.1
  have : p = (p.1, s) := by
    rw [← hps]
  rw [← this]
  exact hp

/-- Registered identities have id below the allocator length. -/
theorem alloc_id_lt {a : DFAAllocator} (h : WfAlloc a) :
    ∀ p ∈ a, p.1.id < a.length ∧ p.1.is_acceptor = false := by
  intro p hp
  have h1 : p.1 ∈ a.map Prod.fst := List.mem_map_of_mem _ hp
  rw [h.1] at h1
  obtain ⟨i, hi, hieq⟩ := List.mem_map.mp h1
  rw [← hieq]
  exact ⟨List.mem_range.mp hi, rfl⟩

/-- `new_node` on a registered subset returns its identity unchanged. -/
theorem new_node_mem {a : DFAAllocator} (h : WfAlloc a) {d : DFANode}
    {s : List Node} (hmem : (d, s) ∈ a) :
    DFAAllocator.new_node a s = (d, a) := by
  unfold DFAAllocator.new_node
  rw [alloc_find_of_mem h.2 hmem]

/-- `new_node` on an unregistered subset appends a fresh identity. -/
theorem new_node_fresh {a : DFAAllocator} (h : WfAlloc a) {s : List Node}
    (habs : ∀ d, (d, s) ∉ a) :
    DFAAllocator.new_node a s =
      (⟨a.length, false⟩, a ++ [(⟨a.length, false⟩, s)]) ∧
    ∀ p ∈ a, p.1 ≠ ⟨a.length, false⟩ := by
  constructor
  · unfold DFAAllocator.new_node
    rw [alloc_find_of_not_mem habs]
  · intro p hp heq
    have := (alloc_id_lt h p hp).1
    rw [heq] at this
    exact absurd this (Nat.lt_irrefl _)

/-- `new_node` preserves the allocator invariant. -/
theorem new_node_wf {a : DFAAllocator} (h : WfAlloc a) (s : List Node) :
    WfAlloc (DFAAllocator.new_node a s).2 := by
  unfold DFAAllocator.new_node
  cases hf : a.find? (fun p => p.2 = s) with
  | some p => exact h
  | none =>
    constructor
    · simp [h.1, List.range_succ]
    · rw [List.pairwise_append]
      refine ⟨h.2, List.pairwise_singleton _ _, ?_⟩
      intro p hp q hq
      rw [List.mem_singleton.mp hq]
      intro hps
      have := List.find?_eq_none.mp hf p hp
      simp only [decide_eq_true_eq] at this
      exact this hps

/-- The allocation fold inside `succeeding_subsets` preserves the invariant. -/
theorem alloc_fold_wf :
    ∀ (ss : List (List Node)) (p : List DFANode × DFAAllocator),
      WfAlloc p.2 → WfAlloc (ss.foldl allocStep p).2 := by
  intro ss
  induction ss with
  | nil => intro p h; exact h
  | cons s rest ih =>
    intro p h
    rw [List.foldl_cons]
    apply ih
    exact new_node_wf h s

/-- `succeeding_subsets` preserves the invariant. -/
theorem succeeding_subsets_wf :
    ∀ (edges : List Edge) (psf : Nat) (ss an : List Node) (a : DFAAllocator)
      (r : List (Char × List DFANode) × DFAAllocator),
      WfAlloc a → succeeding_subsets psf ss edges an a = some r →
      WfAlloc r.2 := by
  intro edges
  induction edges with
  | nil =>
    intro psf ss an a r h hr
    simp only [succeeding_subsets] at hr
    injection hr with hr
    rw [← hr]
    exact h
  | cons e rest ih =>
    intro psf ss an a r h hr
    simp only [succeeding_subsets] at hr
    split at hr
    · split at hr
      · cases hr
      · split at hr
        · cases hr
        · split at hr
          · cases hr
          · next subsets alloc2 hrec =>
              injection hr with hr
              rw [← hr]
              apply ih psf ss an _ (subsets, alloc2) _ hrec
              apply alloc_fold_wf
              exact h
    · exact ih psf ss an a r h hr

/-- The `build_dfa` worklist loop preserves the invariant. -/
theorem buildDfaLoop_wf (pf : Nat) (g : Graph) (an : List Node) (sd : DFANode) :
    ∀ (fuel : Nat) (q v : List DFANode) (dfa : DFA) (alloc : DFAAllocator)
      (r : DFA × DFAAllocator),
      WfAlloc alloc → buildDfaLoop pf g an sd fuel q v dfa alloc = some r →
      WfAlloc r.2 := by
  intro fuel
  induction fuel with
  | zero =>
    intro q v dfa alloc r h hr
    rw [buildDfaLoop_eq] at hr
    by_cases hq : q = []
    · rw [if_pos hq] at hr; cases hr; exact h
    · rw [if_neg hq] at hr; cases hr
  | succ n ih =>
    intro q v dfa alloc r h hr
    rw [buildDfaLoop_eq] at hr
    by_cases hq : q = []
    · rw [if_pos hq] at hr; cases hr; exact h
    · rw [if_neg hq] at hr
      cases hss : succeeding_subsets pf (aGet alloc sd) g.edges an alloc with
      | none => rw [hss] at hr; cases hr
      | some p =>
        rw [hss] at hr
        have hwf2 := succeeding_subsets_wf g.edges pf (aGet alloc sd) an alloc p
          h hss
        exact ih _ _ _ _ _ hwf2 hr

/-- Claim C3: under the invariant that holds throughout `build_dfa`,
`DFAAllocator::new_node` returns the previously registered identity whenever
an equal subset is already registered and allocates a genuinely fresh identity
only otherwise; the allocator never holds two distinct identities mapped to
equal subsets, and `build_dfa` preserves all of this from any well-formed
(e.g. empty) starting allocator. -/
theorem claim3_allocator_canonical :
    (∀ (a : DFAAllocator) (s : List Node), WfAlloc a →
      (∀ d, (d, s) ∈ a → DFAAllocator.new_node a s = (d, a)) ∧
      ((∀ d, (d, s) ∉ a) →
        DFAAllocator.new_node a s =
          (⟨a.length, false⟩, a ++ [(⟨a.length, false⟩, s)]) ∧
        ∀ p ∈ a, p.1 ≠ ⟨a.length, false⟩) ∧
      WfAlloc (DFAAllocator.new_node a s).2 ∧
      (DFAAllocator.new_node a s).2.Pairwise (fun p q => p.2 ≠ q.2)) ∧
    (∀ (lf pf : Nat) (g : Graph) (a : DFAAllocator) (r : DFA × DFAAllocator),
      WfAlloc a → build_dfa lf pf g a = some r →
      WfAlloc r.2 ∧ r.2.Pairwise (fun p q => p.2 ≠ q.2)) := by
  constructor
  · intro a s h
    refine ⟨fun d hmem => new_node_mem h hmem, fun habs => new_node_fresh h habs,
      new_node_wf h s, (new_node_wf h s).2⟩
  · intro lf pf g a r h hr
    unfold build_dfa at hr
    have hwf1 : WfAlloc (DFAAllocator.new_node a (sortNodes [g.start])).2 :=
      new_node_wf h (sortNodes [g.start])
    have := buildDfaLoop_wf pf g
      (sortNodes (g.edges.flatMap (fun e => [e.from_, e.to_])))
      (DFAAllocator.new_node a (sortNodes [g.start])).1 lf
      _ _ _ _ r hwf1 hr
    exact ⟨this, this.2⟩

/-- Witness for claim C3: allocating the subset `{0}` in the empty allocator
registers the fresh identity 0. -/
theorem claim3_allocator_canonical_witness :
    WfAlloc [] ∧
    DFAAllocator.new_node [] [⟨0⟩] = (⟨0, false⟩, [(⟨0, false⟩, [⟨0⟩])]) := by
  have hwf : WfAlloc [] := ⟨rfl, List.Pairwise.nil⟩
  refine ⟨hwf, ?_⟩
  have h := (claim3_allocator_canonical.1 [] [⟨0⟩] hwf).2.1
    (fun d hmem => absurd hmem (List.not_mem_nil _))
  exact h.1

/-! ### Claim C9: termination of epsilon elimination and determinization -/

/-- Strictly-sorted node lists (what `BTreeSet<Node>` iteration yields). -/
def SDNodes (l : List Node) : Prop := l.Pairwise (fun x y => x.id < y.id)

/-- Membership through `insertNode`. -/
theorem mem_insertNode {e x : Node} :
    ∀ {l : List Node}, e ∈ insertNode x l ↔ e = x ∨ e ∈ l := by
  intro l
  induction l with
  | nil => simp [insertNode]
  | cons y ys ih =>
    by_cases h1 : x.id < y.id
    · simp [insertNode, h1]
    · by_cases h2 : x = y
      · subst h2
        simp only [insertNode, h1, if_false, if_pos rfl, Bool.false_eq_true]
        constructor
        · exact Or.inr
        · rintro (rfl | hm)
          · exact List.mem_cons_self _ _
          · exact hm
      · simp only [insertNode, h1, h2, if_false, Bool.false_eq_true,
          List.mem_cons, ih]
        tauto

/-- Node equality is id equality. -/
theorem Node.id_injective {x y : Node} (h : x.id = y.id) : x = y := by
  cases x; cases y; cases h; rfl

/-- `insertNode` preserves strict sortedness. -/
theorem insertNode_sorted {x : Node} :
    ∀ {l : List Node}, SDNodes l → SDNodes (insertNode x l) := by
  intro l
  induction l with
  | nil => intro _; exact List.pairwise_singleton _ _
  | cons y ys ih =>
    intro h
    obtain ⟨hy, hys⟩ := List.pairwise_cons.mp h
    by_cases h1 : x.id < y.id
    · simp only [insertNode, if_pos h1]
      refine List.pairwise_cons.mpr ⟨?_, h⟩
      intro z hz
      rcases List.mem_cons.mp hz with rfl | hz
      · exact h1
      · exact Nat.lt_trans h1 (hy z hz)
    · by_cases h2 : x = y
      · simp only [insertNode, if_neg h1, if_pos h2]
        exact h
      · simp only [insertNode, if_neg h1, if_neg h2]
        refine List.pairwise_cons.mpr ⟨?_, ih hys⟩
        intro z hz
        rcases mem_insertNode.mp hz with rfl | hz
        · rcases Nat.lt_or_ge y.id z.id with hlt | hge
          · exact hlt
          · exact absurd (Node.id_injective
              (Nat.le_antisymm hge (Nat.le_of_not_lt h1))) h2
        · exact hy z hz

/-- `sortNodes` returns a strictly sorted list. -/
theorem sortNodes_sorted (l : List Node) : SDNodes (sortNodes l) := by
  suffices h : ∀ (l acc : List Node), SDNodes acc →
      SDNodes (l.foldl (fun acc x => insertNode x acc) acc) by
    exact h l [] List.Pairwise.nil
  intro l
  induction l with
  | nil => intro acc h; exact h
  | cons x xs ih =>
    intro acc h
    exact ih _ (insertNode_sorted h)

/-- Membership in `sortNodes`. -/
theorem mem_sortNodes {e : Node} {l : List Node} :
    e ∈ sortNodes l ↔ e ∈ l := by
  suffices h : ∀ (l acc : List Node),
      (e ∈ l.foldl (fun acc x => insertNode x acc) acc ↔ e ∈ l ∨ e ∈ acc) by
    unfold sortNodes
    rw [h l []]
    simp
  intro l
  induction l with
  | nil => intro acc; simp
  | cons x xs ih =>
    intro acc
    rw [List.foldl_cons, ih, mem_insertNode]
    simp only [List.mem_cons]
    tauto

/-- Strictly sorted lists have no duplicates. -/
theorem SDNodes.nodup {l : List Node} (h : SDNodes l) : l.Nodup :=
  h.imp (fun hlt heq => by rw [heq] at hlt; exact Nat.lt_irrefl _ hlt)

/-- Every member of a strictly sorted list is at most its last element. -/
theorem SDNodes.le_getLast :
    ∀ {l : List Node}, SDNodes l → ∀ {d : Node}, d ∈ l →
      d.id ≤ (l.getLast?.getD ⟨0⟩).id := by
  intro l
  induction l with
  | nil => intro _ d hd; cases hd
  | cons x xs ih =>
    intro h d hd
    obtain ⟨hx, hxs⟩ := List.pairwise_cons.mp h
    cases hxs2 : xs with
    | nil =>
      rcases List.mem_cons.mp hd with rfl | hd
      · simp
      · rw [hxs2] at hd; cases hd
    | cons y ys =>
      subst hxs2
      rw [List.getLast?_cons_cons]
      rcases List.mem_cons.mp hd with rfl | hd
      · have hy : y ∈ y :: ys := List.mem_cons_self _ _
        have h1 : d.id < y.id := hx y hy
        have h2 : y.id ≤ ((y :: ys).getLast?.getD ⟨0⟩).id := ih hxs hy
        exact Nat.le_trans (Nat.le_of_lt h1) h2
      · exact ih hxs hd

/-- The head of a non-empty `dropWhile` result falsifies the predicate. -/
theorem head_dropWhile_false {p : Node → Bool} :
    ∀ {l : List Node} {h : Node} {t : List Node},
      l.dropWhile p = h :: t → p h = false := by
  intro l
  induction l with
  | nil => intro h t hd; cases hd
  | cons x xs ih =>
    intro h t hd
    by_cases hp : p x
    · rw [List.dropWhile_cons_of_pos hp] at hd
      exact ih hd
    · rw [List.dropWhile_cons_of_neg hp] at hd
      injection hd with h1 h2
      rw [← h1]
      exact Bool.eq_false_iff.mpr hp

/-- The last element of a list is a member. -/
theorem getLast?_mem : ∀ {l : List Node} {x : Node}, l.getLast? = some x → x ∈ l := by
  intro l
  induction l with
  | nil => intro x h; cases h
  | cons a as ih =>
    intro x h
    cases has : as with
    | nil =>
      subst has
      simp only [List.getLast?_singleton] at h
      injection h with h
      rw [h]
      exact List.mem_cons_self _ _
    | cons b bs =>
      subst has
      rw [List.getLast?_cons_cons] at h
      exact List.mem_cons_of_mem _ (ih h)

/-- The default head of a non-empty list is a member. -/
theorem headD_mem : ∀ {l : List Node}, l ≠ [] → l.headD ⟨0⟩ ∈ l := by
  intro l h
  cases l with
  | nil => exact absurd rfl h
  | cons a as => exact List.mem_cons_self _ _

/-- `psMax` of a non-empty list is a member. -/
theorem psMax_mem {ns : List Node} (h : ns ≠ []) : psMax ns ∈ ns := by
  unfold psMax
  cases hq : ns.getLast? with
  | none => exact absurd (List.getLast?_eq_none_iff.mp hq) h
  | some m => exact getLast?_mem hq

/-- Termination measure of the `PowerSet` iterator: lexicographic in the
remaining room for the vector to grow and in how far the first digit still is
from the maximum. -/
def psMeasure (ns cur : List Node) : Nat :=
  (ns.length - cur.length) * ns.length +
    (ns.toFinset.filter (fun x => (cur.headD ⟨0⟩).id < x.id)).card

/-- A successful `PowerSet` step preserves the iterator invariant and strictly
decreases the measure. -/
theorem psNext_step {ns : List Node} (hsd : SDNodes ns) :
    ∀ {cur y cur2 : List Node}, cur ≠ [] → (∀ x ∈ cur, x ∈ ns) →
      psNext ns cur = some (y, cur2) →
      cur2 ≠ [] ∧ (∀ x ∈ cur2, x ∈ ns) ∧ psMeasure ns cur2 < psMeasure ns cur := by
  intro cur y cur2 hne hsub h
  cases cur with
  | nil => exact absurd rfl hne
  | cons d rest =>
    have hdmem : d ∈ ns := hsub d (List.mem_cons_self _ _)
    have hns : ns ≠ [] := fun hcon => by rw [hcon] at hdmem; cases hdmem
    simp only [psNext] at h
    split at h
    · -- d ≠ psMax ns
      next hd =>
      have hdw : ns.dropWhile (fun n => n.id ≤ d.id) ≠ [] := by
        intro hnil
        have hall := List.dropWhile_eq_nil_iff.mp hnil
        have hmax := hall (psMax ns) (psMax_mem hns)
        simp only [decide_eq_true_eq] at hmax
        have hle : d.id ≤ (psMax ns).id := hsd.le_getLast hdmem
        exact hd (Node.id_injective (Nat.le_antisymm hle hmax))
      obtain ⟨hh, ht, hdrop⟩ :
          ∃ hh ht, ns.dropWhile (fun n => n.id ≤ d.id) = hh :: ht := by
        cases hq : ns.dropWhile (fun n => n.id ≤ d.id) with
        | nil => exact absurd hq hdw
        | cons a b => exact ⟨a, b, rfl⟩
      have hnext : psNextNode ns d = hh := by
        unfold psNextNode
        rw [hdrop]
        rfl
      have hhgt : d.id < hh.id := by
        have := head_dropWhile_false hdrop
        simp only [decide_eq_false_iff_not] at this
        exact Nat.lt_of_not_le this
      have hhmem : hh ∈ ns :=
        (List.dropWhile_sublist (fun n => decide (n.id ≤ d.id)) (l := ns)).mem
          (hdrop ▸ List.mem_cons_self hh ht)
      have hy : sortNodes (psNextNode ns d :: rest) = y :=
        congrArg Prod.fst (Option.some.inj h)
      have hcur2 : psNextNode ns d :: rest = cur2 :=
        congrArg Prod.snd (Option.some.inj h)
      rw [← hcur2, hnext]
      refine ⟨List.cons_ne_nil _ _, ?_, ?_⟩
      · intro x hx
        rcases List.mem_cons.mp hx with rfl | hx
        · exact hhmem
        · exact hsub x (List.mem_cons_of_mem _ hx)
      · unfold psMeasure
        have hlen : (hh :: rest).length = (d :: rest).length := rfl
        rw [hlen]
        refine Nat.add_lt_add_left ?_ _
        have hheads : (hh :: rest).headD (⟨0⟩ : Node) = hh := rfl
        have hheadd : (d :: rest).headD (⟨0⟩ : Node) = d := rfl
        rw [hheads, hheadd]
        refine Finset.card_lt_card ?_
        rw [Finset.ssubset_iff_of_subset ?sub]
        case sub =>
          intro x hx
          obtain ⟨hx1, hx2⟩ := Finset.mem_filter.mp hx
          exact Finset.mem_filter.mpr ⟨hx1, Nat.lt_trans hhgt hx2⟩
        refine ⟨hh, Finset.mem_filter.mpr ⟨List.mem_toFinset.mpr hhmem, hhgt⟩, ?_⟩
        intro hcon
        exact Nat.lt_irrefl _ (Finset.mem_filter.mp hcon).2
    · -- d = psMax ns
      split at h
      · next hlen =>
        have hy : sortNodes ((psMin ns :: rest) ++ [psMin ns]) = y :=
          congrArg Prod.fst (Option.some.inj h)
        have hcur2 : (psMin ns :: rest) ++ [psMin ns] = cur2 :=
          congrArg Prod.snd (Option.some.inj h)
        have hminmem : psMin ns ∈ ns := headD_mem hns
        rw [← hcur2]
        refine ⟨by simp, ?_, ?_⟩
        · intro x hx
          rcases List.mem_append.mp hx with hx | hx
          · rcases List.mem_cons.mp hx with rfl | hx
            · exact hminmem
            · exact hsub x (List.mem_cons_of_mem _ hx)
          · rw [List.mem_singleton.mp hx]
            exact hminmem
        · unfold psMeasure
          have hlen2 : ((psMin ns :: rest) ++ [psMin ns]).length =
              (d :: rest).length + 1 := by simp
          have hhead2 : ((psMin ns :: rest) ++ [psMin ns]).headD (⟨0⟩ : Node) =
              psMin ns := rfl
          rw [hlen2, hhead2]
          have hcard : (ns.toFinset.filter
              (fun x => (psMin ns).id < x.id)).card ≤ ns.length - 1 := by
            have hsubf : ns.toFinset.filter (fun x => (psMin ns).id < x.id) ⊆
                ns.toFinset.erase (psMin ns) := by
              intro x hx
              obtain ⟨hx1, hx2⟩ := Finset.mem_filter.mp hx
              refine Finset.mem_erase.mpr ⟨?_, hx1⟩
              intro hcon
              rw [hcon] at hx2
              exact Nat.lt_irrefl _ hx2
            have := Finset.card_le_card hsubf
            rw [Finset.card_erase_of_mem (List.mem_toFinset.mpr hminmem)] at this
            rw [List.toFinset_card_of_nodup hsd.nodup] at this
            exact this
          have hlen3 : (d :: rest).length < ns.length := hlen
          obtain ⟨k, hk⟩ : ∃ k, ns.length - (d :: rest).length = k + 1 :=
            ⟨ns.length - (d :: rest).length - 1, by omega⟩
          have hk2 : ns.length - ((d :: rest).length + 1) = k := by omega
          rw [hk, hk2, Nat.succ_mul]
          have hn1 : 1 ≤ ns.length := Nat.lt_of_le_of_lt (Nat.zero_le _) hlen3
          omega
      · cases h

/-- With fuel above the measure, draining the `PowerSet` iterator succeeds. -/
theorem psDrain_some {ns : List Node} (hsd : SDNodes ns) :
    ∀ (fuel : Nat) (cur : List Node), cur ≠ [] → (∀ x ∈ cur, x ∈ ns) →
      psMeasure ns cur < fuel → (powerSetDrain ns fuel cur).isSome := by
  intro fuel
  induction fuel with
  | zero => intro cur _ _ h3; exact absurd h3 (Nat.not_lt_zero _)
  | succ n ih =>
    intro cur h1 h2 h3
    simp only [powerSetDrain]
    cases hn : psNext ns cur with
    | none => simp
    | some p =>
      obtain ⟨y, cur2⟩ := p
      obtain ⟨g1, g2, g3⟩ := psNext_step hsd h1 h2 hn
      have hrec := ih cur2 g1 g2 (by omega)
      cases hq : powerSetDrain ns n cur2 with
      | none => rw [hq] at hrec; simp at hrec
      | some ys => simp [hq]

/-- Fuel sufficient to drain the `PowerSet` iterator of `ns` from scratch. -/
def psBound (ns : List Node) : Nat := ns.length * ns.length + 2

/-- Draining the `PowerSet` iterator from scratch with the quadratic fuel
bound always succeeds: the iterator terminates. -/
theorem psDrain_top {ns : List Node} (hsd : SDNodes ns) :
    (powerSetDrain ns (psBound ns) []).isSome := by
  cases hns : ns with
  | nil => decide
  | cons a as =>
    rw [← hns]
    have hne : ns ≠ [] := by rw [hns]; exact List.cons_ne_nil _ _
    have hstep : psNext ns [] = some (sortNodes [psMin ns], [psMin ns]) := by
      simp [psNext]
    have hminmem : psMin ns ∈ ns := headD_mem hne
    have hn1 : 1 ≤ ns.length := by
      rw [hns]; exact Nat.succ_le_succ (Nat.zero_le _)
    have hcard : (ns.toFinset.filter
        (fun x => (psMin ns).id < x.id)).card ≤ ns.length - 1 := by
      have hsubf : ns.toFinset.filter (fun x => (psMin ns).id < x.id) ⊆
          ns.toFinset.erase (psMin ns) := by
        intro x hx
        obtain ⟨hx1, hx2⟩ := Finset.mem_filter.mp hx
        refine Finset.mem_erase.mpr ⟨?_, hx1⟩
        intro hcon
        rw [hcon] at hx2
        exact Nat.lt_irrefl _ hx2
      have := Finset.card_le_card hsubf
      rw [Finset.card_erase_of_mem (List.mem_toFinset.mpr hminmem),
        List.toFinset_card_of_nodup hsd.nodup] at this
      exact this
    have hmeas : psMeasure ns [psMin ns] < ns.length * ns.length + 1 := by
      unfold psMeasure
      have hh : ([psMin ns].headD (⟨0⟩ : Node)) = psMin ns := rfl
      rw [hh]
      obtain ⟨k, hk⟩ : ∃ k, ns.length = k + 1 := ⟨ns.length - 1, by omega⟩
      rw [hk]
      have hl1 : ([psMin ns] : List Node).length = 1 := rfl
      rw [hl1, Nat.add_sub_cancel, Nat.succ_mul]
      have h2 : (ns.toFinset.filter (fun x => (psMin ns).id < x.id)).card ≤ k := by
        omega
      omega
    have hrec := psDrain_some hsd (ns.length * ns.length + 1) [psMin ns]
      (List.cons_ne_nil _ _) (by intro x hx; rw [List.mem_singleton.mp hx]; exact hminmem)
      hmeas
    show (match powerSetDrain ns (ns.length * ns.length + 1) [psMin ns] with
      | none => none
      | some ys => some (sortNodes [psMin ns] :: ys)).isSome = true
    cases hq : powerSetDrain ns (ns.length * ns.length + 1) [psMin ns] with
    | none => rw [hq] at hrec; simp at hrec
    | some ys => rfl

/-- On an epsilon-free edge list and a sorted node universe,
`succeeding_subsets` with the quadratic powerset fuel always succeeds. -/
theorem succ_subsets_some :
    ∀ (edges : List Edge) (ss an : List Node) (a : DFAAllocator),
      SDNodes an → (∀ e ∈ edges, e.condition ≠ none) →
      (succeeding_subsets (psBound an) ss edges an a).isSome := by
  intro edges
  induction edges with
  | nil => intro ss an a _ _; simp [succeeding_subsets]
  | cons e rest ih =>
    intro ss an a hsd hef
    have hef2 : ∀ e2 ∈ rest, e2.condition ≠ none :=
      fun e2 he2 => hef e2 (List.mem_cons_of_mem _ he2)
    simp only [succeeding_subsets]
    split
    · split
      · next hcnone => exact absurd hcnone (hef e (List.mem_cons_self _ _))
      · split
        · next hqnone =>
          exact absurd hqnone
            (Option.isSome_iff_ne_none.mp (psDrain_top hsd))
        · split
          · next hq2 =>
            exact absurd hq2
              (Option.isSome_iff_ne_none.mp (ih ss an _ hsd hef2))
          · simp
    · exact ih ss an a hsd hef2

/-- `new_node` under just the distinct-subsets invariant. -/
theorem new_node_mem_pw {a : DFAAllocator}
    (hpw : a.Pairwise (fun p q => p.2 ≠ q.2)) {d : DFANode} {s : List Node}
    (hmem : (d, s) ∈ a) : DFAAllocator.new_node a s = (d, a) := by
  unfold DFAAllocator.new_node
  rw [alloc_find_of_mem hpw hmem]

/-- `new_node` only ever appends to the allocator. -/
theorem new_node_prefix (a : DFAAllocator) (s : List Node) :
    ∃ t, (DFAAllocator.new_node a s).2 = a ++ t := by
  unfold DFAAllocator.new_node
  cases hf : a.find? (fun p => p.2 = s) with
  | some p => exact ⟨[], (List.append_nil a).symm⟩
  | none => exact ⟨[(⟨a.length, false⟩, s)], rfl⟩

/-- After `new_node`, the returned identity is registered for the subset. -/
theorem new_node_registered (a : DFAAllocator) (s : List Node) :
    ((DFAAllocator.new_node a s).1, s) ∈ (DFAAllocator.new_node a s).2 := by
  unfold DFAAllocator.new_node
  cases hf : a.find? (fun p => p.2 = s) with
  | some p =>
    have hmem : p ∈ a := List.mem_of_find?_eq_some hf
    have hps : p.2 = s := by
      have := List.find?_some hf
      simpa using this
    have : (p.1, s) = p := by
      rw [← hps]
    rw [this]
    exact hmem
  | none => simp

/-- The allocation fold of `succeeding_subsets` only appends to the
allocator. -/
theorem allocFold_prefix :
    ∀ (ss : List (List Node)) (p : List DFANode × DFAAllocator),
      ∃ t, (ss.foldl allocStep p).2 = p.2 ++ t := by
  intro ss
  induction ss with
  | nil => intro p; exact ⟨[], (List.append_nil _).symm⟩
  | cons s rest ih =>
    intro p
    rw [List.foldl_cons]
    obtain ⟨t1, ht1⟩ := new_node_prefix p.2 s
    obtain ⟨t2, ht2⟩ := ih (allocStep p s)
    refine ⟨t1 ++ t2, ?_⟩
    rw [ht2]
    have hstep : (allocStep p s).2 = (DFAAllocator.new_node p.2 s).2 := rfl
    rw [hstep, ht1, List.append_assoc]

/-- Rerunning the allocation fold against the final allocator (or any
allocator with distinct subsets containing all its entries) allocates nothing
and returns the same identities. -/
theorem allocFold_idem :
    ∀ (ss : List (List Node)) (p : List DFANode × DFAAllocator)
      (aF : DFAAllocator),
      aF.Pairwise (fun x y => x.2 ≠ y.2) →
      (∀ x ∈ (ss.foldl allocStep p).2, x ∈ aF) →
      ss.foldl allocStep (p.1, aF) = ((ss.foldl allocStep p).1, aF) := by
  intro ss
  induction ss with
  | nil => intro p aF _ _; rfl
  | cons s rest ih =>
    intro p aF hpw hsub
    rw [List.foldl_cons] at hsub ⊢
    rw [List.foldl_cons]
    have hreg : ((DFAAllocator.new_node p.2 s).1, s) ∈
        (DFAAllocator.new_node p.2 s).2 := new_node_registered p.2 s
    have hregF : ((DFAAllocator.new_node p.2 s).1, s) ∈ aF := by
      apply hsub
      obtain ⟨t2, ht2⟩ := allocFold_prefix rest (allocStep p s)
      rw [ht2]
      exact List.mem_append_left _ hreg
    have hstep2 : allocStep (p.1, aF) s =
        ((allocStep p s).1, aF) := by
      show (hsInsert p.1 (DFAAllocator.new_node aF s).1,
        (DFAAllocator.new_node aF s).2) = _
      rw [new_node_mem_pw hpw hregF]
      rfl
    rw [hstep2]

    exact ih (allocStep p s) aF hpw hsub

/-- `aFind` ignores an appended tail when the key is already present. -/
theorem aFind_append_left {α β : Type} [DecidableEq α] :
    ∀ (l t : List (α × β)) (k : α) (v : β),
      aFind l k = some v → aFind (l ++ t) k = some v := by
  intro l
  induction l with
  | nil => intro t k v h; cases h
  | cons p rest ih =>
    intro t k v h
    obtain ⟨k2, v2⟩ := p
    by_cases hk : k2 = k
    · simp only [aFind, if_pos hk] at h
      simp only [List.cons_append, aFind, if_pos hk]
      exact h
    · simp only [aFind, if_neg hk] at h
      simp only [List.cons_append, aFind, if_neg hk]
      exact ih t k v h

/-- A well-formed allocator has pairwise-distinct keys. -/
theorem wf_keys_ne {a : DFAAllocator} (h : WfAlloc a) :
    a.Pairwise (fun p q => p.1 ≠ q.1) := by
  have h1 : (a.map Prod.fst).Pairwise (fun x y : DFANode => x ≠ y) := by
    rw [h.1]
    rw [List.pairwise_map]
    refine (List.pairwise_lt_range a.length).imp ?_
    intro i j hij heq
    have : i = j := congrArg DFANode.id heq
    omega
  rw [List.pairwise_map] at h1
  exact h1

/-- With distinct keys, `aFind` retrieves a registered entry. -/
theorem aFind_key_of_mem :
    ∀ {a : DFAAllocator}, a.Pairwise (fun p q => p.1 ≠ q.1) →
      ∀ {k : DFANode} {v : List Node}, (k, v) ∈ a → aFind a k = some v := by
  intro a
  induction a with
  | nil => intro _ k v hm; cases hm
  | cons p rest ih =>
    intro hpw k v hm
    obtain ⟨hp, hrest⟩ := List.pairwise_cons.mp hpw
    rcases List.mem_cons.mp hm with heq | hm2
    · rw [← heq]
      simp [aFind]
    · obtain ⟨k2, v2⟩ := p
      have hne : k2 ≠ k := hp (k, v) hm2
      simp only [aFind, if_neg hne]
      exact ih hrest hm2

/-- `succeeding_subsets` only appends to the allocator. -/
theorem succ_subsets_prefix :
    ∀ (edges : List Edge) (psf : Nat) (ss an : List Node) (a : DFAAllocator)
      (r : List (Char × List DFANode) × DFAAllocator),
      succeeding_subsets psf ss edges an a = some r → ∃ t, r.2 = a ++ t := by
  intro edges
  induction edges with
  | nil =>
    intro psf ss an a r h
    simp only [succeeding_subsets] at h
    injection h with h
    rw [← h]
    exact ⟨[], (List.append_nil _).symm⟩
  | cons e rest ih =>
    intro psf ss an a r h
    simp only [succeeding_subsets] at h
    split at h
    · split at h
      · cases h
      · next c hceq =>
        split at h
        · cases h
        · next yields hyeq =>
          split at h
          · cases h
          · next subsets alloc2 hrec =>
            injection h with h
            obtain ⟨t2, ht2⟩ := ih _ _ _ _ _ hrec
            obtain ⟨t1, ht1⟩ := allocFold_prefix
              ((yields.filter (fun s => e.to_ ∈ s))) (([] : List DFANode), a)
            have ht2b : alloc2 =
                ((yields.filter (fun s => e.to_ ∈ s)).foldl
                  allocStep ([], a)).2 ++ t2 := ht2
            have ht1b : ((yields.filter (fun s => e.to_ ∈ s)).foldl
                allocStep ([], a)).2 = a ++ t1 := ht1
            refine ⟨t1 ++ t2, ?_⟩
            rw [← h]
            show alloc2 = a ++ (t1 ++ t2)
            rw [ht2b, ht1b, List.append_assoc]
    · exact ih _ _ _ _ _ h

/-- Rerunning `succeeding_subsets` from its own result allocator changes
nothing: every subset it processes is already registered, so the same
identities come back and the allocator does not grow. -/
theorem succ_subsets_idem :
    ∀ (edges : List Edge) (psf : Nat) (ss an : List Node) (a : DFAAllocator)
      (m : List (Char × List DFANode)) (a2 : DFAAllocator),
      a2.Pairwise (fun x y => x.2 ≠ y.2) →
      succeeding_subsets psf ss edges an a = some (m, a2) →
      succeeding_subsets psf ss edges an a2 = some (m, a2) := by
  intro edges
  induction edges with
  | nil =>
    intro psf ss an a m a2 hpw h
    simp only [succeeding_subsets] at h ⊢
    injection h with h
    obtain ⟨h1, h2⟩ : [] = m ∧ a = a2 :=
      ⟨congrArg Prod.fst h, congrArg Prod.snd h⟩
    subst h1
    subst h2
    rfl
  | cons e rest ih =>
    intro psf ss an a m a2 hpw h
    simp only [succeeding_subsets] at h ⊢
    split at h
    · next hin =>
      rw [if_pos hin]
      split at h
      · cases h
      · next c hceq =>
        split at h
        · cases h
        · next yields hyeq =>
          split at h
          · cases h
          · next subsets alloc2 hrec =>
            injection h with h
            obtain ⟨h1, h2⟩ : aExtend subsets c
                ((yields.filter (fun s => e.to_ ∈ s)).foldl
                  allocStep ([], a)).1 = m ∧ alloc2 = a2 :=
              ⟨congrArg Prod.fst h, congrArg Prod.snd h⟩
            subst h2
            obtain ⟨t2, ht2⟩ := succ_subsets_prefix _ _ _ _ _ _ hrec
            have hsub : ∀ x ∈ ((yields.filter (fun s => e.to_ ∈ s)).foldl
                allocStep ([], a)).2, x ∈ alloc2 := by
              intro x hx
              have ht2b : alloc2 =
                  ((yields.filter (fun s => e.to_ ∈ s)).foldl
                    allocStep ([], a)).2 ++ t2 := ht2
              rw [ht2b]
              exact List.mem_append_left _ hx
            have hfold : List.foldl allocStep ([], alloc2)
                (yields.filter (fun s => e.to_ ∈ s)) =
                (((yields.filter (fun s => e.to_ ∈ s)).foldl
                  allocStep ([], a)).1, alloc2) :=
              allocFold_idem _ ([], a) alloc2 hpw hsub
            rw [hfold]
            dsimp only
            have hrec2 : succeeding_subsets psf ss rest an alloc2 =
                some (subsets, alloc2) := ih psf ss an _ subsets alloc2 hpw hrec
            rw [hrec2]
            dsimp only
            rw [h1]
    · next hin =>
      rw [if_neg hin]
      exact ih psf ss an a m a2 hpw h

/-- Behaviour of the inner successor fold of `build_dfa`'s loop body: the
visited set only grows, ends up containing every processed successor, and when
every successor was already visited neither the visited set nor the queue
changes. -/
theorem dfaInner_fold_spec (sd : DFANode) (c : Char) :
    ∀ (ds : List DFANode) (st : List DFAEdge × List DFANode × List DFANode),
      (∀ x ∈ st.2.1, x ∈ (ds.foldl (dfaInner sd c) st).2.1) ∧
      (∀ d ∈ ds, d ∈ (ds.foldl (dfaInner sd c) st).2.1) ∧
      ((∀ d ∈ ds, d ∈ st.2.1) →
        (ds.foldl (dfaInner sd c) st).2.1 = st.2.1 ∧
        (ds.foldl (dfaInner sd c) st).2.2 = st.2.2) := by
  intro ds
  induction ds with
  | nil => intro st; exact ⟨fun x hx => hx, fun d hd => absurd hd (List.not_mem_nil d), fun _ => ⟨rfl, rfl⟩⟩
  | cons d rest ih =>
    intro st
    rw [List.foldl_cons]
    by_cases hd : d ∈ st.2.1
    · have hstep : dfaInner sd c st d =
          (hsInsert st.1 ⟨c, sd, d⟩, st.2.1, st.2.2) := by
        unfold dfaInner
        rw [if_pos hd]
      rw [hstep]
      obtain ⟨iha, ihb, ihc⟩ := ih (hsInsert st.1 ⟨c, sd, d⟩, st.2.1, st.2.2)
      refine ⟨iha, ?_, ?_⟩
      · intro d2 hd2
        rcases List.mem_cons.mp hd2 with rfl | hd2
        · exact iha d2 hd
        · exact ihb d2 hd2
      · intro hall
        exact ihc (fun d2 hd2 => hall d2 (List.mem_cons_of_mem _ hd2))
    · have hstep : dfaInner sd c st d =
          (hsInsert st.1 ⟨c, sd, d⟩, st.2.1 ++ [d], hsInsert st.2.2 d) := by
        unfold dfaInner
        rw [if_neg hd]
      rw [hstep]
      obtain ⟨iha, ihb, ihc⟩ := ih
        (hsInsert st.1 ⟨c, sd, d⟩, st.2.1 ++ [d], hsInsert st.2.2 d)
      refine ⟨?_, ?_, ?_⟩
      · intro x hx
        exact iha x (List.mem_append_left _ hx)
      · intro d2 hd2
        rcases List.mem_cons.mp hd2 with rfl | hd2
        · exact iha d2 (List.mem_append_right _ (List.mem_singleton.mpr rfl))
        · exact ihb d2 hd2
      · intro hall
        exact absurd (hall d (List.mem_cons_self _ _)) hd

/-- Behaviour of the full loop body fold (`dfaIter` generalised over the
initial state). -/
theorem dfaIter_fold_spec (sd : DFANode) :
    ∀ (m : List (Char × List DFANode))
      (st : List DFAEdge × List DFANode × List DFANode),
      (∀ x ∈ st.2.1,
        x ∈ (m.foldl (fun st cs => cs.2.foldl (dfaInner sd cs.1) st) st).2.1) ∧
      (∀ cs ∈ m, ∀ d ∈ cs.2,
        d ∈ (m.foldl (fun st cs => cs.2.foldl (dfaInner sd cs.1) st) st).2.1) ∧
      ((∀ cs ∈ m, ∀ d ∈ cs.2, d ∈ st.2.1) →
        (m.foldl (fun st cs => cs.2.foldl (dfaInner sd cs.1) st) st).2.1 = st.2.1 ∧
        (m.foldl (fun st cs => cs.2.foldl (dfaInner sd cs.1) st) st).2.2 = st.2.2) := by
  intro m
  induction m with
  | nil =>
    intro st
    exact ⟨fun x hx => hx, fun cs hcs => absurd hcs (List.not_mem_nil cs),
      fun _ => ⟨rfl, rfl⟩⟩
  | cons cs rest ih =>
    intro st
    rw [List.foldl_cons]
    obtain ⟨ja, jb, jc⟩ := dfaInner_fold_spec sd cs.1 cs.2 st
    obtain ⟨iha, ihb, ihc⟩ := ih (cs.2.foldl (dfaInner sd cs.1) st)
    refine ⟨?_, ?_, ?_⟩
    · intro x hx
      exact iha x (ja x hx)
    · intro cs2 hcs2 d hd
      rcases List.mem_cons.mp hcs2 with rfl | hcs2
      · exact iha d (jb d hd)
      · exact ihb cs2 hcs2 d hd
    · intro hall
      have hj := jc (hall cs (List.mem_cons_self _ _))
      have hall2 : ∀ cs2 ∈ rest, ∀ d ∈ cs2.2,
          d ∈ (cs.2.foldl (dfaInner sd cs.1) st).2.1 := by
        intro cs2 hcs2 d hd
        rw [hj.1]
        exact hall cs2 (List.mem_cons_of_mem _ hcs2) d hd
      have hi := ihc hall2
      exact ⟨hi.1.trans hj.1, hi.2.trans hj.2⟩

/-- With loop fuel 2, the `build_dfa` worklist loop finishes: the second
iteration recomputes the same successor map from the same start subset, finds
everything already visited and empties the queue. -/
theorem buildDfaLoop_two (g : Graph) (an : List Node) (sd : DFANode)
    (a1 : DFAAllocator) (dfa : DFA) (q v : List DFANode)
    (hwf1 : WfAlloc a1) (hsd : SDNodes an)
    (hef : ∀ e ∈ g.edges, e.condition ≠ none)
    (hkey : (aFind a1 sd).isSome) :
    (buildDfaLoop (psBound an) g an sd 2 q v dfa a1).isSome := by
  rw [buildDfaLoop_eq]
  by_cases hq : q = []
  · rw [if_pos hq]; rfl
  · rw [if_neg hq]
    have hsome1 := succ_subsets_some g.edges (aGet a1 sd) an a1 hsd hef
    cases hSS : succeeding_subsets (psBound an) (aGet a1 sd) g.edges an a1 with
    | none => rw [hSS] at hsome1; simp at hsome1
    | some p =>
      obtain ⟨m, a2⟩ := p
      have hwf2 : WfAlloc a2 :=
        succeeding_subsets_wf g.edges (psBound an) (aGet a1 sd) an a1 (m, a2)
          hwf1 hSS
      obtain ⟨S, hS⟩ := Option.isSome_iff_exists.mp hkey
      obtain ⟨tpre, htpre⟩ := succ_subsets_prefix g.edges (psBound an)
        (aGet a1 sd) an a1 (m, a2) hSS
      have htpre2 : a2 = a1 ++ tpre := htpre
      have hfind2 : aFind a2 sd = some S := by
        rw [htpre2]
        exact aFind_append_left a1 tpre sd S hS
      have hget : aGet a2 sd = aGet a1 sd := by
        unfold aGet
        rw [hfind2, hS]
      have hSS2 : succeeding_subsets (psBound an) (aGet a2 sd) g.edges an a2 =
          some (m, a2) := by
        rw [hget]
        exact succ_subsets_idem g.edges (psBound an) (aGet a1 sd) an a1 m a2
          hwf2.2 hSS
      have hmain : (buildDfaLoop (psBound an) g an sd 1
          (dfaIter sd m dfa.edges v).2.2 (dfaIter sd m dfa.edges v).2.1
          { dfa with edges := (dfaIter sd m dfa.edges v).1 } a2).isSome = true := by
        rw [buildDfaLoop_eq]
        by_cases hq2 : (dfaIter sd m dfa.edges v).2.2 = []
        · rw [if_pos hq2]; rfl
        · rw [if_neg hq2]
          rw [hSS2]
          have hb := (dfaIter_fold_spec sd m (dfa.edges, v, [])).2.1
          have hc := (dfaIter_fold_spec sd m
            ((({ dfa with edges := (dfaIter sd m dfa.edges v).1 } : DFA).edges),
              (dfaIter sd m dfa.edges v).2.1, ([] : List DFANode))).2.2
          have hempty : (dfaIter sd m
              ({ dfa with edges := (dfaIter sd m dfa.edges v).1 } : DFA).edges
              (dfaIter sd m dfa.edges v).2.1).2.2 = [] :=
            (hc (fun cs hcs d hd => hb cs hcs d hd)).2
          have hfin : (buildDfaLoop (psBound an) g an sd 0
              (dfaIter sd m
                ({ dfa with edges := (dfaIter sd m dfa.edges v).1 } : DFA).edges
                (dfaIter sd m dfa.edges v).2.1).2.2
              (dfaIter sd m
                ({ dfa with edges := (dfaIter sd m dfa.edges v).1 } : DFA).edges
                (dfaIter sd m dfa.edges v).2.1).2.1
              { dfa with edges := (dfaIter sd m
                ({ dfa with edges := (dfaIter sd m dfa.edges v).1 } : DFA).edges
                (dfaIter sd m dfa.edges v).2.1).1 } a2).isSome = true := by
            rw [buildDfaLoop_eq, if_pos hempty]
            rfl
          exact hfin
      exact hmain

/-- `build_dfa` with loop fuel 2 and the quadratic powerset fuel always
returns a result on an epsilon-free graph, starting from the empty allocator
as `main.rs` does. -/
theorem build_dfa_term (g : Graph)
    (hef : ∀ e ∈ g.edges, e.condition ≠ none) :
    (build_dfa 2
      (psBound (sortNodes (g.edges.flatMap (fun e => [e.from_, e.to_])))) g
      []).isSome := by
  have hred : build_dfa 2
      (psBound (sortNodes (g.edges.flatMap (fun e => [e.from_, e.to_])))) g [] =
      buildDfaLoop
        (psBound (sortNodes (g.edges.flatMap (fun e => [e.from_, e.to_]))))
        g (sortNodes (g.edges.flatMap (fun e => [e.from_, e.to_])))
        ⟨0, false⟩ 2 [⟨0, false⟩] []
        ⟨⟨0, false⟩, [], []⟩ [(⟨0, false⟩, sortNodes [g.start])] := rfl
  rw [hred]
  refine buildDfaLoop_two g
    (sortNodes (g.edges.flatMap (fun e => [e.from_, e.to_]))) ⟨0, false⟩
    [(⟨0, false⟩, sortNodes [g.start])] ⟨⟨0, false⟩, [], []⟩ [⟨0, false⟩] []
    ⟨rfl, ?_⟩ (sortNodes_sorted _) hef rfl
  exact List.pairwise_singleton _ _

/-- The per-successor step of `reachable_through_epsilon`'s inner loop, named
so fold lemmas can mention it. -/
def rteStep (m : List (Node × List Node)) (fuel : Nat) :
    Option (List Node × List Node) → Node → Option (List Node × List Node)
  | none, _ => none
  | some (a, vis), t =>
    match reachable_through_epsilon m fuel t vis with
    | none => none
    | some (ext, vis) => some (ext.foldl hsInsert a, vis)

/-- The inline fold function of `reachable_through_epsilon` is `rteStep`. -/
theorem rteLam_eq (m : List (Node × List Node)) (fuel : Nat) :
    (fun (acc : Option (List Node × List Node)) (t : Node) =>
      match acc with
      | none => none
      | some (a, vis) =>
        match reachable_through_epsilon m fuel t vis with
        | none => none
        | some (ext, vis) => some (ext.foldl hsInsert a, vis)) =
    rteStep m fuel := by
  funext acc t
  cases acc with
  | none => rfl
  | some p =>
    obtain ⟨a, vis⟩ := p
    rfl

/-- Definitional unfolding of `reachable_through_epsilon` at positive fuel. -/
theorem rte_eq (m : List (Node × List Node)) (fuel : Nat) (current : Node)
    (visited : List Node) :
    reachable_through_epsilon m (fuel + 1) current visited =
      if current ∈ visited then some ([], visited)
      else
        match aFind m current with
        | none => some ([], visited ++ [current])
        | some nodes =>
          nodes.foldl (rteStep m fuel) (some (nodes, visited ++ [current])) := by
  rw [reachable_through_epsilon]
  rw [← rteLam_eq]

/-- Values found by `aFind` sit inside the flattened value multiset of the
association list. -/
theorem aFind_mem_flat {α β : Type} [DecidableEq α] :
    ∀ (m : List (α × List β)) (k : α) (vs : List β),
      aFind m k = some vs → ∀ t ∈ vs, t ∈ m.flatMap Prod.snd := by
  intro m
  induction m with
  | nil => intro k vs h; cases h
  | cons p rest ih =>
    intro k vs h t ht
    obtain ⟨k2, v2⟩ := p
    simp only [aFind] at h
    by_cases hk : k2 = k
    · rw [if_pos hk] at h
      cases h
      simp only [List.flatMap_cons]
      exact List.mem_append_left _ ht
    · rw [if_neg hk] at h
      simp only [List.flatMap_cons]
      exact List.mem_append_right _ (ih k vs h t ht)

/-- Fuel sufficiency for `reachable_through_epsilon`: the visited set only
grows, and each level either stops at once or permanently marks its node, so
fuel exceeding the unvisited epsilon-target count always succeeds. -/
theorem rte_suff (m : List (Node × List Node)) :
    ∀ (fuel : Nat) (current : Node) (visited : List Node),
      1 ≤ fuel →
      (current ∈ visited ∨
        (((m.flatMap Prod.snd).toFinset \ visited.toFinset).erase current).card
          + 2 ≤ fuel) →
      ∃ r ext, reachable_through_epsilon m fuel current visited =
          some (r, visited ++ ext) := by
  intro fuel
  induction fuel with
  | zero => intro current visited h1 _; omega
  | succ k ih =>
    intro current visited h1 hyp
    rw [rte_eq]
    by_cases hcv : current ∈ visited
    · rw [if_pos hcv]
      exact ⟨[], [], by simp⟩
    · rw [if_neg hcv]
      have hcard := hyp.resolve_left hcv
      cases hfind : aFind m current with
      | none => exact ⟨[], [current], rfl⟩
      | some nodes =>
        have hsub : ∀ t ∈ nodes, t ∈ m.flatMap Prod.snd :=
          aFind_mem_flat m current nodes hfind
        have hfold : ∀ (ns : List Node), (∀ t ∈ ns, t ∈ m.flatMap Prod.snd) →
            ∀ (a vis : List Node), current ∈ vis → (∀ x ∈ visited, x ∈ vis) →
            ∃ r ext2, ns.foldl (rteStep m k) (some (a, vis)) =
                some (r, vis ++ ext2) := by
          intro ns
          induction ns with
          | nil =>
            intro _ a vis _ _
            exact ⟨a, [], by simp⟩
          | cons t ts ihn =>
            intro hts a vis hcur hvv
            rw [List.foldl_cons]
            have hch : ∃ r ext, reachable_through_epsilon m k t vis =
                some (r, vis ++ ext) := by
              apply ih
              · omega
              · by_cases htv : t ∈ vis
                · exact Or.inl htv
                · right
                  have ht : t ∈ m.flatMap Prod.snd :=
                    hts t (List.mem_cons_self _ _)
                  have hEs : (m.flatMap Prod.snd).toFinset \ vis.toFinset ⊆
                      ((m.flatMap Prod.snd).toFinset \ visited.toFinset).erase
                        current := by
                    intro x hx
                    rw [Finset.mem_sdiff, List.mem_toFinset,
                      List.mem_toFinset] at hx
                    rw [Finset.mem_erase, Finset.mem_sdiff, List.mem_toFinset,
                      List.mem_toFinset]
                    refine ⟨?_, hx.1, fun hxv => hx.2 (hvv x hxv)⟩
                    intro hxc
                    exact hx.2 (hxc ▸ hcur)
                  have htE : t ∈ (m.flatMap Prod.snd).toFinset \
                      vis.toFinset := by
                    rw [Finset.mem_sdiff, List.mem_toFinset, List.mem_toFinset]
                    exact ⟨ht, htv⟩
                  have htE2 := hEs htE
                  have hc1 := Finset.card_le_card
                    (Finset.erase_subset_erase t hEs)
                  have hc2 := Finset.card_erase_of_mem htE2
                  have hc3 := Finset.card_pos.mpr ⟨t, htE2⟩
                  omega
            obtain ⟨r2, ext2, hch⟩ := hch
            have hred : rteStep m k (some (a, vis)) t =
                some (r2.foldl hsInsert a, vis ++ ext2) := by
              simp only [rteStep]
              rw [hch]
            rw [hred]
            have hcur2 : current ∈ vis ++ ext2 := List.mem_append_left _ hcur
            have hvv2 : ∀ x ∈ visited, x ∈ vis ++ ext2 :=
              fun x hx => List.mem_append_left _ (hvv x hx)
            obtain ⟨r3, ext3, h3⟩ := ihn
              (fun t2 ht2 => hts t2 (List.mem_cons_of_mem _ ht2))
              (r2.foldl hsInsert a) (vis ++ ext2) hcur2 hvv2
            rw [List.append_assoc] at h3
            exact ⟨r3, ext2 ++ ext3, h3⟩
        obtain ⟨r, ext2, hf⟩ := hfold nodes hsub nodes (visited ++ [current])
          (List.mem_append_right _ (List.mem_singleton.mpr rfl))
          (fun x hx => List.mem_append_left _ hx)
        rw [List.append_assoc] at hf
        exact ⟨r, [current] ++ ext2, hf⟩

/-- The fuel bound used for every epsilon-closure computation. -/
def rteBound (m : List (Node × List Node)) : Nat :=
  (m.flatMap Prod.snd).length + 2

/-- A fresh closure computation with the `rteBound` fuel always succeeds. -/
theorem rte_top (m : List (Node × List Node)) (current : Node) :
    (reachable_through_epsilon m (rteBound m) current []).isSome := by
  have hc : (((m.flatMap Prod.snd).toFinset \
      ([] : List Node).toFinset).erase current).card ≤
      (m.flatMap Prod.snd).length := by
    have h1 : (m.flatMap Prod.snd).toFinset \
        ([] : List Node).toFinset = (m.flatMap Prod.snd).toFinset := by
      rw [List.toFinset_nil, Finset.sdiff_empty]
    rw [h1]
    exact le_trans Finset.card_erase_le (List.toFinset_card_le _)
  obtain ⟨r, ext, h⟩ := rte_suff m (rteBound m) current [] (by
    unfold rteBound
    omega) (Or.inr (by
    unfold rteBound
    omega))
  rw [h]
  rfl

/-- `mergeVisit` with the `rteBound` closure fuel always succeeds: the only
failure source inside it is the closure computation. -/
theorem mergeVisit_some (g : Graph) (epsMap : List (Node × List Node))
    (nonEpsMap : List (Node × List (Char × Node))) (node : Node)
    (st : List Edge × List Node) :
    (mergeVisit g epsMap nonEpsMap (rteBound epsMap) node st).isSome := by
  obtain ⟨p, hp⟩ := Option.isSome_iff_exists.mp (rte_top epsMap node)
  obtain ⟨closure, vset⟩ := p
  unfold mergeVisit
  rw [hp]
  by_cases h : node ∈ g.acceptors <;> simp [h]

/-- The per-edge step of `traverse_node`'s inner loop, named so fold lemmas
can mention it. -/
def tnStep (g : Graph) (epsMap : List (Node × List Node))
    (nonEpsMap : List (Node × List (Char × Node))) (rteFuel fuel : Nat) :
    Option ((List Edge × List Node) × List Node) → Edge →
    Option ((List Edge × List Node) × List Node)
  | none, _ => none
  | some (st, vis), e => traverse_node g epsMap nonEpsMap rteFuel fuel e.to_ vis st

/-- The inline fold function of `traverse_node` is `tnStep`. -/
theorem tnLam_eq (g : Graph) (epsMap : List (Node × List Node))
    (nonEpsMap : List (Node × List (Char × Node))) (rteFuel fuel : Nat) :
    (fun (acc : Option ((List Edge × List Node) × List Node)) (e : Edge) =>
      match acc with
      | none => none
      | some (st, vis) =>
        traverse_node g epsMap nonEpsMap rteFuel fuel e.to_ vis st) =
    tnStep g epsMap nonEpsMap rteFuel fuel := by
  funext acc e
  cases acc with
  | none => rfl
  | some p =>
    obtain ⟨st, vis⟩ := p
    rfl

/-- Definitional unfolding of `traverse_node` at positive fuel. -/
theorem tn_eq (g : Graph) (epsMap : List (Node × List Node))
    (nonEpsMap : List (Node × List (Char × Node))) (rteFuel fuel : Nat)
    (current : Node) (visited : List Node) (st : List Edge × List Node) :
    traverse_node g epsMap nonEpsMap rteFuel (fuel + 1) current visited st =
      if current ∈ visited then some (st, visited)
      else
        match mergeVisit g epsMap nonEpsMap rteFuel current st with
        | none => none
        | some st2 =>
          (g.edges.filter (fun e => e.from_ = current)).foldl
            (tnStep g epsMap nonEpsMap rteFuel fuel)
            (some (st2, visited ++ [current])) := by
  rw [traverse_node]
  rw [← tnLam_eq]

/-- Fuel sufficiency for `traverse_node`: same visited-set argument as for the
closure computation, with edge targets as the universe. -/
theorem tn_suff (g : Graph) (epsMap : List (Node × List Node))
    (nonEpsMap : List (Node × List (Char × Node))) :
    ∀ (fuel : Nat) (current : Node) (visited : List Node)
      (st : List Edge × List Node),
      1 ≤ fuel →
      (current ∈ visited ∨
        (((g.edges.map Edge.to_).toFinset \ visited.toFinset).erase
          current).card + 2 ≤ fuel) →
      ∃ r ext, traverse_node g epsMap nonEpsMap (rteBound epsMap) fuel current
          visited st = some (r, visited ++ ext) := by
  intro fuel
  induction fuel with
  | zero => intro current visited st h1 _; omega
  | succ k ih =>
    intro current visited st h1 hyp
    rw [tn_eq]
    by_cases hcv : current ∈ visited
    · rw [if_pos hcv]
      exact ⟨st, [], by simp⟩
    · rw [if_neg hcv]
      have hcard := hyp.resolve_left hcv
      obtain ⟨st2, hmv⟩ := Option.isSome_iff_exists.mp
        (mergeVisit_some g epsMap nonEpsMap current st)
      rw [hmv]
      have hfold : ∀ (es : List Edge),
          (∀ e ∈ es, e.to_ ∈ g.edges.map Edge.to_) →
          ∀ (st3 : List Edge × List Node) (vis : List Node),
            current ∈ vis → (∀ x ∈ visited, x ∈ vis) →
            ∃ r ext2, es.foldl (tnStep g epsMap nonEpsMap (rteBound epsMap) k)
                (some (st3, vis)) = some (r, vis ++ ext2) := by
        intro es
        induction es with
        | nil =>
          intro _ st3 vis _ _
          exact ⟨st3, [], by simp⟩
        | cons e es2 ihn =>
          intro hes st3 vis hcur hvv
          rw [List.foldl_cons]
          have hch : ∃ r ext, traverse_node g epsMap nonEpsMap (rteBound epsMap)
              k e.to_ vis st3 = some (r, vis ++ ext) := by
            apply ih
            · omega
            · by_cases htv : e.to_ ∈ vis
              · exact Or.inl htv
              · right
                have ht : e.to_ ∈ g.edges.map Edge.to_ :=
                  hes e (List.mem_cons_self _ _)
                have hEs : (g.edges.map Edge.to_).toFinset \ vis.toFinset ⊆
                    ((g.edges.map Edge.to_).toFinset \
                      visited.toFinset).erase current := by
                  intro x hx
                  rw [Finset.mem_sdiff, List.mem_toFinset,
                    List.mem_toFinset] at hx
                  rw [Finset.mem_erase, Finset.mem_sdiff, List.mem_toFinset,
                    List.mem_toFinset]
                  refine ⟨?_, hx.1, fun hxv => hx.2 (hvv x hxv)⟩
                  intro hxc
                  exact hx.2 (hxc ▸ hcur)
                have htE : e.to_ ∈ (g.edges.map Edge.to_).toFinset \
                    vis.toFinset := by
                  rw [Finset.mem_sdiff, List.mem_toFinset, List.mem_toFinset]
                  exact ⟨ht, htv⟩
                have htE2 := hEs htE
                have hc1 := Finset.card_le_card
                  (Finset.erase_subset_erase e.to_ hEs)
                have hc2 := Finset.card_erase_of_mem htE2
                have hc3 := Finset.card_pos.mpr ⟨e.to_, htE2⟩
                omega
          obtain ⟨r2, ext2, hch⟩ := hch
          have hred : tnStep g epsMap nonEpsMap (rteBound epsMap) k
              (some (st3, vis)) e = some (r2, vis ++ ext2) := by
            simp only [tnStep]
            exact hch
          rw [hred]
          have hcur2 : current ∈ vis ++ ext2 := List.mem_append_left _ hcur
          have hvv2 : ∀ x ∈ visited, x ∈ vis ++ ext2 :=
            fun x hx => List.mem_append_left _ (hvv x hx)
          obtain ⟨r3, ext3, h3⟩ := ihn
            (fun e2 he2 => hes e2 (List.mem_cons_of_mem _ he2))
            r2 (vis ++ ext2) hcur2 hvv2
          rw [List.append_assoc] at h3
          exact ⟨r3, ext2 ++ ext3, h3⟩
      obtain ⟨r, ext2, hf⟩ := hfold
        (g.edges.filter (fun e => e.from_ = current))
        (fun e he => List.mem_map_of_mem _ (List.mem_of_mem_filter he))
        st2 (visited ++ [current])
        (List.mem_append_right _ (List.mem_singleton.mpr rfl))
        (fun x hx => List.mem_append_left _ hx)
      rw [List.append_assoc] at hf
      exact ⟨r, [current] ++ ext2, hf⟩

/-- The fuel bound used for the `traverse_node` recursion. -/
def tnBound (g : Graph) : Nat := g.edges.length + 2

/-- The top-level `traverse_node` call of `merge_by_epsilon` succeeds with the
`tnBound` fuel. -/
theorem tn_top (g : Graph) (epsMap : List (Node × List Node))
    (nonEpsMap : List (Node × List (Char × Node))) (st : List Edge × List Node)
    (current : Node) :
    (traverse_node g epsMap nonEpsMap (rteBound epsMap) (tnBound g) current []
      st).isSome := by
  have hlen : (g.edges.map Edge.to_).length = g.edges.length := by simp
  have hc : (((g.edges.map Edge.to_).toFinset \
      ([] : List Node).toFinset).erase current).card ≤ g.edges.length := by
    have h1 : (g.edges.map Edge.to_).toFinset \
        ([] : List Node).toFinset = (g.edges.map Edge.to_).toFinset := by
      rw [List.toFinset_nil, Finset.sdiff_empty]
    rw [h1]
    exact le_trans Finset.card_erase_le
      (le_trans (List.toFinset_card_le _) (le_of_eq hlen))
  obtain ⟨r, ext, h⟩ := tn_suff g epsMap nonEpsMap (tnBound g) current [] st
    (by unfold tnBound; omega) (Or.inr (by unfold tnBound; omega))
  rw [h]
  rfl

/-- `merge_by_epsilon` with the `tnBound` and `rteBound` fuels always
returns a graph: epsilon elimination terminates on every input graph,
epsilon cycles included. -/
theorem merge_term (g : Graph) :
    (merge_by_epsilon (tnBound g) (rteBound (mergeMaps g.edges).1) g).isSome := by
  obtain ⟨p, hp⟩ := Option.isSome_iff_exists.mp
    (tn_top g (mergeMaps g.edges).1 (mergeMaps g.edges).2.1
      ((mergeMaps g.edges).2.2, []) g.start)
  obtain ⟨st1, v1⟩ := p
  have hgoal : (match traverse_node g (mergeMaps g.edges).1
      (mergeMaps g.edges).2.1 (rteBound (mergeMaps g.edges).1) (tnBound g)
      g.start [] ((mergeMaps g.edges).2.2, []) with
    | none => none
    | some (st, _) =>
      some ({ start := g.start, edges := st.1, acceptors := st.2 } : Graph)).isSome
      = true := by
    rw [hp]
    rfl
  exact hgoal

/-- Fold-invariant preservation helper. -/
theorem foldl_preserve {α β : Type} (P : α → Prop) (f : α → β → α)
    (h : ∀ a b, P a → P (f a b)) :
    ∀ (l : List β) (a : α), P a → P (l.foldl f a) := by
  intro l
  induction l with
  | nil => intro a ha; exact ha
  | cons b bs ih =>
    intro a ha
    rw [List.foldl_cons]
    exact ih _ (h a b ha)

/-- The direct output edges collected by `mergeMaps` are the non-epsilon
input edges, so none of them carries an epsilon condition. -/
theorem mergeMaps_nonEps (edges : List Edge) :
    ∀ e ∈ (mergeMaps edges).2.2, e.condition ≠ none := by
  unfold mergeMaps
  refine foldl_preserve (fun st => ∀ e ∈ st.2.2, e.condition ≠ none) mmStep
    ?_ edges ([], [], []) ?_
  · intro st e hP
    unfold mmStep
    cases hc : e.condition with
    | none => exact hP
    | some c =>
      intro f hf
      have hf2 : f ∈ insertEdge e st.2.2 := hf
      rcases mem_insertEdge.mp hf2 with rfl | hf3
      · rw [hc]; simp
      · exact hP f hf3
  · intro e he
    simp at he

/-- `mergeVisit` only adds edges with explicit character conditions. -/
theorem mergeVisit_nonEps (g : Graph) (epsMap : List (Node × List Node))
    (nonEpsMap : List (Node × List (Char × Node))) (rteFuel : Nat) (node : Node)
    (st st2 : List Edge × List Node)
    (h : mergeVisit g epsMap nonEpsMap rteFuel node st = some st2)
    (hst : ∀ e ∈ st.1, e.condition ≠ none) :
    ∀ e ∈ st2.1, e.condition ≠ none := by
  unfold mergeVisit at h
  cases hrte : reachable_through_epsilon epsMap rteFuel node [] with
  | none => rw [hrte] at h; cases h
  | some p =>
    obtain ⟨closure, vset⟩ := p
    rw [hrte] at h
    have hfold : ∀ e ∈ (closure.foldl (mvOuter g nonEpsMap node) st).1,
        e.condition ≠ none := by
      refine foldl_preserve (fun s => ∀ e ∈ s.1, e.condition ≠ none)
        (mvOuter g nonEpsMap node) ?_ closure st hst
      intro a b hP
      unfold mvOuter
      have hinner : ∀ e ∈ ((aGet nonEpsMap b).foldl (mvInner node) a).1,
          e.condition ≠ none := by
        refine foldl_preserve (fun s => ∀ e ∈ s.1, e.condition ≠ none)
          (mvInner node) ?_ _ a hP
        intro a2 ct hP2 e he
        have he2 : e ∈ insertEdge ⟨some ct.1, node, ct.2⟩ a2.1 := he
        rcases mem_insertEdge.mp he2 with rfl | he3
        · simp
        · exact hP2 e he3
      by_cases hb : b ∈ g.acceptors
      · rw [if_pos hb]
        exact hinner
      · rw [if_neg hb]
        exact hinner
    have h2 : (if node ∈ g.acceptors then
        some ((closure.foldl (mvOuter g nonEpsMap node) st).1,
          closure.foldl hsInsert
            (hsInsert (closure.foldl (mvOuter g nonEpsMap node) st).2 node))
      else some (closure.foldl (mvOuter g nonEpsMap node) st)) = some st2 := h
    by_cases hacc : node ∈ g.acceptors
    · rw [if_pos hacc] at h2
      cases h2
      exact hfold
    · rw [if_neg hacc] at h2
      cases h2
      exact hfold

/-- Folding `tnStep` from a dead accumulator stays dead. -/
theorem tnStep_fold_none (g : Graph) (epsMap : List (Node × List Node))
    (nonEpsMap : List (Node × List (Char × Node))) (rteFuel fuel : Nat) :
    ∀ (es : List Edge),
      es.foldl (tnStep g epsMap nonEpsMap rteFuel fuel) none = none := by
  intro es
  induction es with
  | nil => rfl
  | cons e es2 ih =>
    rw [List.foldl_cons]
    exact ih

/-- `traverse_node` preserves epsilon-freeness of the output edge set under
construction. -/
theorem tn_nonEps (g : Graph) (epsMap : List (Node × List Node))
    (nonEpsMap : List (Node × List (Char × Node))) (rteFuel : Nat) :
    ∀ (fuel : Nat) (current : Node) (visited : List Node)
      (st : List Edge × List Node) (r : (List Edge × List Node) × List Node),
      (∀ e ∈ st.1, e.condition ≠ none) →
      traverse_node g epsMap nonEpsMap rteFuel fuel current visited st =
        some r →
      ∀ e ∈ r.1.1, e.condition ≠ none := by
  intro fuel
  induction fuel with
  | zero => intro current visited st r _ h; cases h
  | succ k ih =>
    intro current visited st r hst h
    rw [tn_eq] at h
    by_cases hcv : current ∈ visited
    · rw [if_pos hcv] at h
      cases h
      exact hst
    · rw [if_neg hcv] at h
      cases hmv : mergeVisit g epsMap nonEpsMap rteFuel current st with
      | none => rw [hmv] at h; cases h
      | some st2 =>
        rw [hmv] at h
        have hst2 : ∀ e ∈ st2.1, e.condition ≠ none :=
          mergeVisit_nonEps g epsMap nonEpsMap rteFuel current st st2 hmv hst
        have hfold : ∀ (es : List Edge)
            (acc : Option ((List Edge × List Node) × List Node)),
            (∀ q, acc = some q → ∀ e ∈ q.1.1, e.condition ≠ none) →
            es.foldl (tnStep g epsMap nonEpsMap rteFuel k) acc = some r →
            ∀ e ∈ r.1.1, e.condition ≠ none := by
          intro es
          induction es with
          | nil =>
            intro acc hacc hfe
            exact hacc r hfe
          | cons e es2 ihn =>
            intro acc hacc hfe
            rw [List.foldl_cons] at hfe
            cases acc with
            | none =>
              have hz : tnStep g epsMap nonEpsMap rteFuel k none e = none := rfl
              rw [hz, tnStep_fold_none] at hfe
              cases hfe
            | some q =>
              obtain ⟨stq, visq⟩ := q
              refine ihn _ ?_ hfe
              intro q2 hq2
              have hq3 : traverse_node g epsMap nonEpsMap rteFuel k e.to_ visq
                  stq = some q2 := hq2
              exact ih e.to_ visq stq q2
                (hacc (stq, visq) rfl) hq3
        exact hfold (g.edges.filter (fun e => e.from_ = current))
          (some (st2, visited ++ [current]))
          (fun q hq => by
            cases hq
            exact hst2) h

/-- Every edge of the graph returned by `merge_by_epsilon` carries a
character condition: the output is epsilon-free. -/
theorem merge_nonEps (tnF rteF : Nat) (g g1 : Graph)
    (h : merge_by_epsilon tnF rteF g = some g1) :
    ∀ e ∈ g1.edges, e.condition ≠ none := by
  unfold merge_by_epsilon at h
  have h2 : (match traverse_node g (mergeMaps g.edges).1 (mergeMaps g.edges).2.1
      rteF tnF g.start [] ((mergeMaps g.edges).2.2, []) with
    | none => none
    | some (st, _) =>
      some ({ start := g.start, edges := st.1, acceptors := st.2 } : Graph)) =
      some g1 := h
  cases htn : traverse_node g (mergeMaps g.edges).1 (mergeMaps g.edges).2.1
      rteF tnF g.start [] ((mergeMaps g.edges).2.2, []) with
  | none =>
    rw [htn] at h2
    cases h2
  | some p =>
    rw [htn] at h2
    obtain ⟨st1, v1⟩ := p
    have hne := tn_nonEps g (mergeMaps g.edges).1 (mergeMaps g.edges).2.1 rteF
      tnF g.start [] ((mergeMaps g.edges).2.2, []) (st1, v1)
      (mergeMaps_nonEps g.edges) htn
    have h3 : some (Graph.mk g.start st1.1 st1.2) = some g1 := h2
    cases h3
    exact hne

/-- Claim C9: for every expression tree — Repetition epsilon cycles and
deeply nested Branch/Sequence included — both `merge_by_epsilon` (with its
per-closure visited sets) and `build_dfa` (with its visited set and worklist)
terminate: concrete fuel bounds computed from the intermediate graphs make
both stages return a result instead of running out of fuel. -/
theorem claim9_termination (expr : RegExpr) :
    ∃ (g1 : Graph) (r : DFA × DFAAllocator),
      merge_by_epsilon (tnBound (build_nfa expr 0).1)
        (rteBound (mergeMaps (build_nfa expr 0).1.edges).1)
        (build_nfa expr 0).1 = some g1 ∧
      build_dfa 2
        (psBound (sortNodes (g1.edges.flatMap (fun e => [e.from_, e.to_]))))
        g1 [] = some r := by
  obtain ⟨g1, hg1⟩ := Option.isSome_iff_exists.mp
    (merge_term (build_nfa expr 0).1)
  have hef := merge_nonEps _ _ _ g1 hg1
  obtain ⟨r, hr⟩ := Option.isSome_iff_exists.mp (build_dfa_term g1 hef)
  exact ⟨g1, r, hg1, hr⟩

end Automaton
